import Mathlib

/-!
# Verification of the maze-game core (grid geometry, collision, pursuit AI)

Shallow embedding of the repository's core over exact rationals:

* the grid model (`Maze` as a list of rows of characters, traversable = `' '`
  or `'g'`),
* the circle-vs-grid sliding collision resolver
  (`is_cell_free`, `is_free_radius`, `try_move_with_slide` from
  `src/core/enemy.rs`),
* the ray-march distance query (modelled from the spec, the compiled
  `render/casters.rs` is absent from the snapshot),
* the pursuit controller `Enemy` with its `update` state machine, vision
  query `sees_player`, BFS pathfinder `next_step_towards`, and the
  presentational `facing_key_for_camera` query.

Machine floats (`f32`) are modelled as exact rationals; the transcendental
library calls (`cos`, `sin`, `atan2`, `sqrt`) are abstracted as an explicit
record of rational-valued operations (`FloatOps`), because the claims under
verification never depend on their numeric values, only on the control-flow
structure around them.  The fixed cosine table used for the 8-point collision
circle is modelled by exact rationals close to the `f32` values.
-/

namespace MazeGame

/-- Grid of cell characters, row-major: `maze[j][i]` is column `i` of row `j`,
exactly as in `src/core/maze.rs` (`pub type Maze = Vec<Vec<char>>`). -/
abbrev Maze := List (List Char)

/-- A character is traversable when it is an Open cell `' '` or an Exit cell
`'g'` — the `c == ' ' || c == 'g'` test used throughout `src/core/enemy.rs`. -/
def charFree (c : Char) : Bool := c == ' ' || c == 'g'

/-- The grid cell (column, row) containing a world point: floor division by the
block size (`(wx / block as f32).floor() as isize`). -/
def cellOf (block : ℕ) (wx wy : ℚ) : ℤ × ℤ :=
  (⌊wx / (block : ℚ)⌋, ⌊wy / (block : ℚ)⌋)

/-- Character stored at the cell containing a world point, `none` when that
cell lies outside the grid (negative or past the row/column count). -/
def cellCharAt (m : Maze) (block : ℕ) (wx wy : ℚ) : Option Char :=
  if ⌊wx / (block : ℚ)⌋ < 0 ∨ ⌊wy / (block : ℚ)⌋ < 0 then none
  else if m.length ≤ (⌊wy / (block : ℚ)⌋).toNat ∨
      (m.getD (⌊wy / (block : ℚ)⌋).toNat []).length ≤
        (⌊wx / (block : ℚ)⌋).toNat then none
  else some ((m.getD (⌊wy / (block : ℚ)⌋).toNat []).getD
      (⌊wx / (block : ℚ)⌋).toNat '#')

/-- `is_cell_free` from `src/core/enemy.rs`: the world point lies in an
in-bounds traversable cell.  The Rust code checks `i >= map[0].len()` against
row 0's width (grids are rectangular by the loader invariant). -/
def is_cell_free (m : Maze) (block : ℕ) (wx wy : ℚ) : Bool :=
  if ⌊wx / (block : ℚ)⌋ < 0 ∨ ⌊wy / (block : ℚ)⌋ < 0 then false
  else if m.length ≤ (⌊wy / (block : ℚ)⌋).toNat ∨
      (m.getD 0 []).length ≤ (⌊wx / (block : ℚ)⌋).toNat then false
  else charFree ((m.getD (⌊wy / (block : ℚ)⌋).toNat []).getD
      (⌊wx / (block : ℚ)⌋).toNat '#')

/-- Rational stand-ins for the `f32` cosine of `k * TAU / 8` used by
`is_free_radius` (`0.7071` models `cos(PI/4)` up to float rounding). -/
def cosOct (k : ℕ) : ℚ :=
  match k with
  | 0 => 1 | 1 => 7071/10000 | 2 => 0 | 3 => -7071/10000
  | 4 => -1 | 5 => -7071/10000 | 6 => 0 | _ => 7071/10000

/-- Rational stand-ins for the `f32` sine of `k * TAU / 8`. -/
def sinOct (k : ℕ) : ℚ :=
  match k with
  | 0 => 0 | 1 => 7071/10000 | 2 => 1 | 3 => 7071/10000
  | 4 => 0 | 5 => -7071/10000 | 6 => -1 | _ => -7071/10000

/-- `is_free_radius` from `src/core/enemy.rs`: the centre plus 8 points on the
perimeter of the radius-`r` circle all lie in traversable cells. -/
def is_free_radius (m : Maze) (block : ℕ) (wx wy r : ℚ) : Bool :=
  is_cell_free m block wx wy &&
    (List.range 8).all fun k =>
      is_cell_free m block (wx + r * cosOct k) (wy + r * sinOct k)

/-- `try_move_with_slide` from `src/core/enemy.rs`: resolve the X axis first
against the sampled radius-10 circle, then the Y axis from the (possibly
updated) X.  Returns the new position and whether either axis moved. -/
def try_move_with_slide (m : Maze) (block : ℕ) (x y dx dy : ℚ) :
    (ℚ × ℚ) × Bool :=
  let nx := x + dx
  let step1 : ℚ × Bool :=
    if is_free_radius m block nx y 10 then (nx, true) else (x, false)
  let x1 := step1.1
  let ny := y + dy
  if is_free_radius m block x1 ny 10 then ((x1, ny), true)
  else ((x1, y), step1.2)

/-- Fold a list of desired deltas through `try_move_with_slide`, as the
per-frame movement of player and enemy does. -/
def moveSeq (m : Maze) (block : ℕ) (p : ℚ × ℚ) (ds : List (ℚ × ℚ)) : ℚ × ℚ :=
  ds.foldl (fun q d => (try_move_with_slide m block q.1 q.2 d.1 d.2).1) p

/-- The *full* (mathematical) collision circle of radius `r` at `(x, y)`
overlaps a Wall cell: some point of the closed disk lies in an in-bounds
non-traversable cell.  This is the spec's "collision circle never overlaps a
Wall cell" property, as opposed to the 9-point sampling the code performs. -/
def circleOverlapsWall (m : Maze) (block : ℕ) (x y r : ℚ) : Prop :=
  ∃ px py : ℚ, (px - x) ^ 2 + (py - y) ^ 2 ≤ r ^ 2 ∧
    ∃ c, cellCharAt m block px py = some c ∧ charFree c = false

/-- A world point is outside the (rectangular) grid bounds: negative cell
index, row index past the row count, or column index past the grid width. -/
def outOfBounds (m : Maze) (block : ℕ) (wx wy : ℚ) : Prop :=
  ⌊wx / (block : ℚ)⌋ < 0 ∨ ⌊wy / (block : ℚ)⌋ < 0 ∨
    m.length ≤ (⌊wy / (block : ℚ)⌋).toNat ∨
    (m.getD 0 []).length ≤ (⌊wx / (block : ℚ)⌋).toNat

/-- Modelled from the spec: the ray caster actually compiled into the game,
`crate::render::casters::cast_ray` (imported by `src/main.rs` and
`src/render/render3d.rs`), is missing from the snapshot; only its callers are
present.  Following §4.1 of the spec, the march from the origin along
direction `(c, s)` accumulates distance `d` in fixed increments of one
sixteenth of a cell: at each sampled point, if the point falls in a Wall (or
out-of-bounds) cell the accumulated distance is returned, otherwise if `d`
exceeds `maxRange` the result is "no hit".  The recursion carries explicit
fuel; `cast_ray` below supplies enough fuel for the range check to fire
first, so the fuel-exhaustion branch is unreachable. -/
def cast_ray_aux (m : Maze) (block : ℕ) (ox oy c s maxRange step : ℚ) :
    ℕ → ℚ → Option ℚ
  | 0, _ => none
  | Nat.succ n, d =>
      if is_cell_free m block (ox + d * c) (oy + d * s) = false then some d
      else if maxRange < d then none
      else cast_ray_aux m block ox oy c s maxRange step n (d + step)

/-- Modelled from the spec: `cast(origin, angle, grid, maxRange)` (§4.1), with
the angle represented by its direction cosines `(c, s)`.  See
`cast_ray_aux` for the march; the step is `blockSize / 16`. -/
def cast_ray (m : Maze) (block : ℕ) (ox oy c s maxRange : ℚ) : Option ℚ :=
  let step : ℚ := (block : ℚ) / 16
  cast_ray_aux m block ox oy c s maxRange step
    ((⌈maxRange / step⌉).toNat + 2) 0

/-- Whether the ray sample at accumulated distance `k * step` lies in a
traversable cell. -/
def raySampleFree (m : Maze) (block : ℕ) (ox oy c s step : ℚ) (k : ℕ) : Bool :=
  is_cell_free m block (ox + ((k : ℚ) * step) * c) (oy + ((k : ℚ) * step) * s)

/-- Replace every Exit cell `'g'` by an Open cell `' '`, leaving walls as they
are. -/
def openifyExits (m : Maze) : Maze :=
  m.map (List.map fun ch => if ch = 'g' then ' ' else ch)

/-! ### BFS pathfinder (`next_step_towards` from `src/core/enemy.rs`) -/

/-- The `passable` closure of `next_step_towards`: bounds check against the
captured width/height, then the traversable-character test. -/
def passableCell (m : Maze) (w h : ℕ) (p : ℕ × ℕ) : Bool :=
  if h ≤ p.2 ∨ w ≤ p.1 then false
  else charFree ((m.getD p.2 []).getD p.1 '#')

/-- BFS working state: FIFO queue of cells and the visited/parent map
(`prev[j][i]` in the source, here a function to ease reasoning). -/
structure BfsState where
  queue : List (ℕ × ℕ)
  prev : ℕ × ℕ → Option (ℕ × ℕ)

/-- The four 4-connected search directions, in source order. -/
def dirsList : List (ℤ × ℤ) := [(1, 0), (-1, 0), (0, 1), (0, -1)]

/-- One neighbour probe of the BFS inner loop: skip when negative, out of
bounds, already visited, or not passable; otherwise record the parent and
enqueue. -/
def bfs_push (pass : ℕ × ℕ → Bool) (w h : ℕ) (c : ℕ × ℕ) (st : BfsState)
    (d : ℤ × ℤ) : BfsState :=
  if ((c.1 : ℤ) + d.1) < 0 ∨ ((c.2 : ℤ) + d.2) < 0 then st
  else if w ≤ ((c.1 : ℤ) + d.1).toNat ∨ h ≤ ((c.2 : ℤ) + d.2).toNat then st
  else if (st.prev (((c.1 : ℤ) + d.1).toNat, ((c.2 : ℤ) + d.2).toNat)).isSome
    then st
  else if pass (((c.1 : ℤ) + d.1).toNat, ((c.2 : ℤ) + d.2).toNat) = false then st
  else
    { queue := st.queue ++ [(((c.1 : ℤ) + d.1).toNat, ((c.2 : ℤ) + d.2).toNat)],
      prev := fun p =>
        if p = (((c.1 : ℤ) + d.1).toNat, ((c.2 : ℤ) + d.2).toNat) then some c
        else st.prev p }

/-- Expand a dequeued cell through all four directions. -/
def bfs_expand (pass : ℕ × ℕ → Bool) (w h : ℕ) (c : ℕ × ℕ) (st : BfsState) :
    BfsState :=
  dirsList.foldl (bfs_push pass w h c) st

/-- The BFS main loop (`while let Some((cx, cy)) = q.pop_front()`), with
explicit fuel; the caller supplies fuel `2*w*h + 1`, which is proved
sufficient below.  Stops early when the goal is dequeued. -/
def bfs_loop (pass : ℕ × ℕ → Bool) (w h : ℕ) (goal : ℕ × ℕ) :
    ℕ → BfsState → (ℕ × ℕ → Option (ℕ × ℕ))
  | 0, st => st.prev
  | Nat.succ n, st =>
      match st.queue with
      | [] => st.prev
      | c :: rest =>
          if c = goal then st.prev
          else bfs_loop pass w h goal n
            (bfs_expand pass w h c { queue := rest, prev := st.prev })

/-- Walk the parent chain back from the goal (`while cur != start`), keeping
the previous chain cell in `last`; fuel-based like the loop above. -/
def back_track (prevF : ℕ × ℕ → Option (ℕ × ℕ)) (start : ℕ × ℕ) :
    ℕ → ℕ × ℕ → ℕ × ℕ → ℕ × ℕ
  | 0, _, last => last
  | Nat.succ n, cur, last =>
      if cur = start then last
      else
        match prevF cur with
        | some p => back_track prevF start n p cur
        | none => cur

/-- Cell-level core of `next_step_towards`: the bounds and passability guards,
the BFS, the reachability test, and the backward walk, on integer cell
coordinates. -/
def next_step_cell (m : Maze) (sc gc : ℤ × ℤ) : Option (ℕ × ℕ) :=
  if sc.1 < 0 ∨ sc.2 < 0 ∨ gc.1 < 0 ∨ gc.2 < 0 then none
  else if (m.getD 0 []).length ≤ sc.1.toNat ∨ m.length ≤ sc.2.toNat ∨
      (m.getD 0 []).length ≤ gc.1.toNat ∨ m.length ≤ gc.2.toNat then none
  else if passableCell m (m.getD 0 []).length m.length
        (sc.1.toNat, sc.2.toNat) = false ∨
      passableCell m (m.getD 0 []).length m.length
        (gc.1.toNat, gc.2.toNat) = false then none
  else
    if (bfs_loop (passableCell m (m.getD 0 []).length m.length)
          (m.getD 0 []).length m.length (gc.1.toNat, gc.2.toNat)
          (2 * (m.getD 0 []).length * m.length + 1)
          { queue := [(sc.1.toNat, sc.2.toNat)],
            prev := fun p =>
              if p = (sc.1.toNat, sc.2.toNat) then
                some (sc.1.toNat, sc.2.toNat)
              else none }
        (gc.1.toNat, gc.2.toNat)).isSome = false then none
    else some (back_track
      (bfs_loop (passableCell m (m.getD 0 []).length m.length)
        (m.getD 0 []).length m.length (gc.1.toNat, gc.2.toNat)
        (2 * (m.getD 0 []).length * m.length + 1)
        { queue := [(sc.1.toNat, sc.2.toNat)],
          prev := fun p =>
            if p = (sc.1.toNat, sc.2.toNat) then
              some (sc.1.toNat, sc.2.toNat)
            else none })
      (sc.1.toNat, sc.2.toNat)
      ((m.getD 0 []).length * m.length + 1)
      (gc.1.toNat, gc.2.toNat) (gc.1.toNat, gc.2.toNat))

/-- `next_step_towards` from `src/core/enemy.rs`: convert both world
positions to cells, run the guarded BFS, and turn the first path step into
the vector from the exact continuous source position to that cell's centre
(`(last.0 as f32 + 0.5) * block as f32 - sx`). -/
def next_step_towards (m : Maze) (block : ℕ) (sx sy tx ty : ℚ) :
    Option (ℚ × ℚ) :=
  match next_step_cell m (cellOf block sx sy) (cellOf block tx ty) with
  | none => none
  | some last =>
      some (((last.1 : ℚ) + 1/2) * (block : ℚ) - sx,
        ((last.2 : ℚ) + 1/2) * (block : ℚ) - sy)

/-! ### The pursuit controller (`Enemy` from `src/core/enemy.rs`) -/

/-- The transcendental `f32` library calls used by the enemy, abstracted as
rational-valued operations: machine cosine, sine, `atan2` and square root.
The claims under verification depend only on the control flow around these
calls, never on their numeric values. -/
structure FloatOps where
  cosQ : ℚ → ℚ
  sinQ : ℚ → ℚ
  atan2Q : ℚ → ℚ → ℚ
  sqrtQ : ℚ → ℚ

/-- The exact rational value of the `f32` constant `std::f32::consts::PI`
(`0x40490FDB`). -/
def piQ : ℚ := 13176795 / 4194304

/-- First loop of `normalize_angle`: `while a > PI { a -= 2*PI }`, with fuel. -/
def normSubLoop : ℕ → ℚ → ℚ
  | 0, a => a
  | Nat.succ n, a => if piQ < a then normSubLoop n (a - 2 * piQ) else a

/-- Second loop of `normalize_angle`: `while a < -PI { a += 2*PI }`. -/
def normAddLoop : ℕ → ℚ → ℚ
  | 0, a => a
  | Nat.succ n, a => if a < -piQ then normAddLoop n (a + 2 * piQ) else a

/-- Enough fuel for both normalisation loops on input `a`. -/
def normFuel (a : ℚ) : ℕ := (⌈|a| / piQ⌉).toNat + 1

/-- `normalize_angle` from `src/core/enemy.rs`: wrap an angle into
`[-PI, PI]` by repeatedly adding or subtracting `2*PI`. -/
def normalize_angle (a : ℚ) : ℚ :=
  normAddLoop (normFuel a) (normSubLoop (normFuel a) a)

/-- The behaviour states of the pursuit controller. -/
inductive EnemyState where
  | Patrol
  | Chase
  | Cooldown
deriving DecidableEq, Repr

/-- The `Enemy` struct from `src/core/enemy.rs`, field for field. -/
structure Enemy where
  x : ℚ
  y : ℚ
  a : ℚ
  active : Bool
  fov : ℚ
  range : ℚ
  speed_patrol : ℚ
  speed_chase : ℚ
  state : EnemyState
  cooldown : ℚ
  cooldown_max : ℚ
  patrol_turn_timer : ℚ
  last_face : Char
  path_recalc_timer : ℚ
  last_seen_x : ℚ
  last_seen_y : ℚ
  has_last_seen : Bool
  memory_time : ℚ
deriving DecidableEq

/-- `Enemy::new`: initial field values (FOV `PI * 2/3`, range 1100, patrol
speed 50, chase speed 115, cooldown max 2.5 s, facing label `'S'`). -/
def Enemy.new (x y a : ℚ) : Enemy :=
  { x := x, y := y, a := a, active := false, fov := piQ * (2/3),
    range := 1100, speed_patrol := 50, speed_chase := 115,
    state := EnemyState.Patrol, cooldown := 0, cooldown_max := 5/2,
    patrol_turn_timer := 0, last_face := 'S', path_recalc_timer := 0,
    last_seen_x := 0, last_seen_y := 0, has_last_seen := false,
    memory_time := 0 }

/-- One sampled point of `line_of_sight_clear`: negative cell, out-of-bounds
cell (against the sampled row's own length) or a non-traversable character
all fail closed. -/
def losSampleOk (m : Maze) (block : ℕ) (sx sy : ℚ) : Bool :=
  if ⌊sx / (block : ℚ)⌋ < 0 ∨ ⌊sy / (block : ℚ)⌋ < 0 then false
  else if m.length ≤ (⌊sy / (block : ℚ)⌋).toNat ∨
      (m.getD (⌊sy / (block : ℚ)⌋).toNat []).length ≤
        (⌊sx / (block : ℚ)⌋).toNat then false
  else charFree ((m.getD (⌊sy / (block : ℚ)⌋).toNat []).getD
      (⌊sx / (block : ℚ)⌋).toNat '#')

/-- Sample count of `line_of_sight_clear` from `src/core/enemy.rs`: the
segment length (machine square root) divided by step `max(block * 0.6, 5)`,
rounded up.  Rust's `for i in 0..=steps` over an `i32` is empty when `steps`
is negative. -/
def losStepsCount (ops : FloatOps) (x0 y0 x1 y1 : ℚ) (block : ℕ) : ℤ :=
  ⌈ops.sqrtQ ((x1 - x0) * (x1 - x0) + (y1 - y0) * (y1 - y0)) /
    max ((block : ℚ) * (6/10)) 5⌉

/-- See `losStepsCount` above: `(dist / step).ceil() as i32`, then
`for i in 0..=steps` with `t = i / steps.max(1)`. -/
def line_of_sight_clear (ops : FloatOps) (m : Maze) (x0 y0 x1 y1 : ℚ)
    (block : ℕ) : Bool :=
  if losStepsCount ops x0 y0 x1 y1 block < 0 then true
  else
    (List.range ((losStepsCount ops x0 y0 x1 y1 block).toNat + 1)).all fun i =>
      losSampleOk m block
        (x0 + (x1 - x0) *
          ((i : ℚ) / ((max (losStepsCount ops x0 y0 x1 y1 block) 1 : ℤ) : ℚ)))
        (y0 + (y1 - y0) *
          ((i : ℚ) / ((max (losStepsCount ops x0 y0 x1 y1 block) 1 : ℤ) : ℚ)))

/-- `Enemy::sees_player`: in range (machine distance), inside the half-FOV
(normalized absolute angle difference), and clear line of sight — each guard
failing with an early `false` exactly as in the source. -/
def sees_player (ops : FloatOps) (e : Enemy) (m : Maze) (px py : ℚ)
    (block : ℕ) : Bool :=
  if e.range < ops.sqrtQ ((px - e.x) * (px - e.x) + (py - e.y) * (py - e.y))
    then false
  else if e.fov * (1/2) <
      |normalize_angle (ops.atan2Q (py - e.y) (px - e.x) - e.a)| then false
  else line_of_sight_clear ops m e.x e.y px py block

/-- Truncation toward zero, the semantics of Rust's `f32 as i32` cast (the
saturating behaviour at the `i32` limits is irrelevant to the claims). -/
def truncQ (q : ℚ) : ℤ := if q < 0 then -⌊-q⌋ else ⌊q⌋

/-- `(x ^ y) & 1` on two integers: 1 when the parities differ, else 0. -/
def xorBit (x y : ℤ) : ℚ := if x % 2 = y % 2 then 0 else 1

/-- `Enemy::chase`: turn toward the player with angular rate capped at
`2.8 * dt` (two sequential clamps, as in the source), apply the 1.15 lunge
boost inside distance 120, and move through the collision resolver. -/
def chase (ops : FloatOps) (e : Enemy) (px py : ℚ) (m : Maze) (block : ℕ)
    (dt : ℚ) : Enemy :=
  let diff0 := normalize_angle (ops.atan2Q (py - e.y) (px - e.x) - e.a)
  let d1 := if (14/5) * dt < diff0 then (14/5) * dt else diff0
  let d2 := if d1 < -((14/5) * dt) then -((14/5) * dt) else d1
  let a1 := normalize_angle (e.a + d2)
  let boost : ℚ :=
    if (px - e.x) * (px - e.x) + (py - e.y) * (py - e.y) < 14400 then 23/20
    else 1
  let r := try_move_with_slide m block e.x e.y
    (ops.cosQ a1 * (e.speed_chase * boost) * dt)
    (ops.sinQ a1 * (e.speed_chase * boost) * dt)
  { e with a := a1, x := r.1.1, y := r.1.2 }

/-- `Enemy::search_last_seen`: forget the last-seen position within distance
40; otherwise re-plan through the BFS when the recalculation timer elapses
(reset to 0.25 s), turn with rate capped at `2.6 * dt`, and advance at 82 %
chase speed through the collision resolver. -/
def search_last_seen (ops : FloatOps) (e : Enemy) (m : Maze) (block : ℕ)
    (dt : ℚ) : Enemy :=
  if (e.last_seen_x - e.x) * (e.last_seen_x - e.x) +
      (e.last_seen_y - e.y) * (e.last_seen_y - e.y) < 1600 then
    { e with has_last_seen := false }
  else
    let e1 :=
      if e.path_recalc_timer - dt ≤ 0 then
        match next_step_towards m block e.x e.y e.last_seen_x e.last_seen_y with
        | some nv =>
            let diff0 := normalize_angle (ops.atan2Q nv.2 nv.1 - e.a)
            let d1 := if (13/5) * dt < diff0 then (13/5) * dt else diff0
            let d2 := if d1 < -((13/5) * dt) then -((13/5) * dt) else d1
            { e with path_recalc_timer := 1/4,
                     a := normalize_angle (e.a + d2) }
        | none => { e with path_recalc_timer := 1/4 }
      else { e with path_recalc_timer := e.path_recalc_timer - dt }
    let r := try_move_with_slide m block e1.x e1.y
      (ops.cosQ e1.a * (e.speed_chase * (41/50)) * dt)
      (ops.sinQ e1.a * (e.speed_chase * (41/50)) * dt)
    { e1 with x := r.1.1, y := r.1.2 }

/-- The timer-decrement and periodic deterministic turn at the head of
`Enemy::patrol`: when the turn timer elapses it is reset to 1.2 s and the
heading changes by `0.6 - 1.2 * ((x as i32 ^ y as i32) & 1)`. -/
def patrol_turn_step (e : Enemy) (dt : ℚ) : Enemy :=
  if e.patrol_turn_timer - dt ≤ 0 then
    { e with patrol_turn_timer := 6/5,
             a := normalize_angle
               (e.a + 3/5 - (6/5) * xorBit (truncQ e.x) (truncQ e.y)) }
  else { e with patrol_turn_timer := e.patrol_turn_timer - dt }

/-- `Enemy::patrol`: periodic turn, then advance (at 60 % speed when `slow`)
through the collision resolver; when the resolver reports no movement, add
0.5 rad to the heading and raise the turn timer to at least 0.2 s. -/
def patrol (ops : FloatOps) (e : Enemy) (m : Maze) (block : ℕ) (dt : ℚ)
    (slow : Bool) : Enemy :=
  let sp := if slow then e.speed_patrol * (3/5) else e.speed_patrol
  let e1 := patrol_turn_step e dt
  let r := try_move_with_slide m block e1.x e1.y
    (ops.cosQ e1.a * sp * dt) (ops.sinQ e1.a * sp * dt)
  if r.2 then { e1 with x := r.1.1, y := r.1.2 }
  else
    { e1 with
      x := r.1.1
      y := r.1.2
      a := normalize_angle (e1.a + 1/2)
      patrol_turn_timer := max e1.patrol_turn_timer (1/5) }

/-- Nominal label ranges of `Enemy::facing_key_for_camera` (`candidate`). -/
def face_candidate (d : ℚ) : Char :=
  if -60 < d ∧ d ≤ 60 then 'S'
  else if 60 < d ∧ d ≤ 150 then 'E'
  else if d ≤ -60 ∧ -150 < d then 'W'
  else 'N'

/-- The hysteresis keep-bands of `Enemy::facing_key_for_camera` (`in_keep`),
each nominal range widened by the 12-degree keep margin. -/
def in_keep (face : Char) (d : ℚ) : Bool :=
  if face = 'S' then decide (-60 - 12 < d ∧ d ≤ 60 + 12)
  else if face = 'E' then decide (60 - 12 < d ∧ d ≤ 150 + 12)
  else if face = 'W' then decide (-150 - 12 ≤ d ∧ d < -60 + 12)
  else if face = 'N' then decide (d ≤ -150 + 12 ∨ 150 - 12 < d)
  else false

/-- `Enemy::facing_key_for_camera`: angle from the enemy to the camera,
relative to the enemy's own heading, in degrees; keep the previous label
while inside its widened band, otherwise adopt (and store) the nominal
candidate.  Returns the label and the updated enemy (`&mut self`). -/
def facing_key_for_camera (ops : FloatOps) (e : Enemy) (cam_x cam_y : ℚ) :
    Char × Enemy :=
  if in_keep e.last_face (normalize_angle (ops.atan2Q (cam_y - e.y) (cam_x - e.x) - e.a) * 180 / piQ) then
    (e.last_face, e)
  else
    (face_candidate (normalize_angle (ops.atan2Q (cam_y - e.y) (cam_x - e.x) - e.a) * 180 / piQ),
      { e with last_face := face_candidate (normalize_angle (ops.atan2Q (cam_y - e.y) (cam_x - e.x) - e.a) * 180 / piQ) })

/-- The vision-driven state-transition phase of `Enemy::update`: seen ⇒
Chase with refreshed last-known, 5 s memory and primed cooldown; unseen ⇒
the per-state memory / cooldown countdowns. -/
def update_transition (e : Enemy) (sees_now : Bool) (px py dt : ℚ) : Enemy :=
  if sees_now then
    { e with last_seen_x := px, last_seen_y := py, has_last_seen := true,
             state := EnemyState.Chase, memory_time := 5,
             cooldown := e.cooldown_max }
  else
    match e.state with
    | EnemyState.Chase =>
        if 0 < e.memory_time then
          { e with memory_time := e.memory_time - dt }
        else
          { e with state := EnemyState.Cooldown,
                   cooldown := e.cooldown_max, has_last_seen := false }
    | EnemyState.Cooldown =>
        if e.cooldown - dt ≤ 0 then
          { e with cooldown := e.cooldown - dt, state := EnemyState.Patrol }
        else { e with cooldown := e.cooldown - dt }
    | EnemyState.Patrol => e

/-- The movement phase of `Enemy::update`, on the transitioned state. -/
def update_move (ops : FloatOps) (e1 : Enemy) (sees_now : Bool)
    (px py : ℚ) (m : Maze) (block : ℕ) (dt : ℚ) : Enemy :=
  match e1.state with
  | EnemyState.Chase =>
      if sees_now then chase ops e1 px py m block dt
      else if e1.has_last_seen then search_last_seen ops e1 m block dt
      else e1
  | EnemyState.Cooldown => patrol ops e1 m block dt true
  | EnemyState.Patrol => patrol ops e1 m block dt false

/-- `Enemy::update`: early return when inactive; the vision check, the
state-transition phase, then the movement phase of the resulting state. -/
def update (ops : FloatOps) (e : Enemy) (m : Maze) (px py : ℚ) (block : ℕ)
    (dt : ℚ) : Enemy :=
  if e.active = false then e
  else
    update_move ops
      (update_transition e (sees_player ops e m px py block) px py dt)
      (sees_player ops e m px py block) px py m block dt

/-- One frame of input to `update`: the player position and the frame's
delta time. -/
structure Frame where
  px : ℚ
  py : ℚ
  dt : ℚ

/-- Run `update` over a list of frames. -/
def updateRun (ops : FloatOps) (m : Maze) (block : ℕ) (e : Enemy)
    (fs : List Frame) : Enemy :=
  fs.foldl (fun acc f => update ops acc m f.px f.py block f.dt) e

/-- Total delta time of a frame list. -/
def dtSum (fs : List Frame) : ℚ := (fs.map Frame.dt).sum

/-- Transcendental operations all returning 0, for concrete test runs. -/
def zeroOps : FloatOps :=
  { cosQ := fun _ => 0, sinQ := fun _ => 0, atan2Q := fun _ _ => 0,
    sqrtQ := fun _ => 0 }

/-- Default frame (player at the origin, zero delta time). -/
def frame0 : Frame := { px := 0, py := 0, dt := 0 }

/-- Transcendental operations with `atan2` constantly 3 radians, for the
facing-label test. -/
def atan3Ops : FloatOps :=
  { cosQ := fun _ => 0, sinQ := fun _ => 0, atan2Q := fun _ _ => 3,
    sqrtQ := fun _ => 0 }

/-- 1×1 all-Wall grid: every movement attempt is blocked. -/
def wallMaze : Maze := [['#']]

/-- A patrolling enemy at `(5, 5)` heading 0 with 5 s left on the turn
timer. -/
def c8enemy : Enemy :=
  { x := 5, y := 5, a := 0, active := true, fov := 0, range := 0,
    speed_patrol := 50, speed_chase := 115, state := EnemyState.Patrol,
    cooldown := 0, cooldown_max := 5/2, patrol_turn_timer := 5,
    last_face := 'S', path_recalc_timer := 0, last_seen_x := 0,
    last_seen_y := 0, has_last_seen := false, memory_time := 0 }

/-! ### Graph-theoretic notions for the BFS pathfinder -/

/-- 4-connectivity of grid cells (N/E/S/W neighbours), on natural-number
cell coordinates. -/
def adjQ (a b : ℕ × ℕ) : Prop :=
  (b.1 = a.1 + 1 ∧ b.2 = a.2) ∨ (a.1 = b.1 + 1 ∧ b.2 = a.2) ∨
    (b.2 = a.2 + 1 ∧ b.1 = a.1) ∨ (a.2 = b.2 + 1 ∧ b.1 = a.1)

/-- 4-connected walks of a given length from `s`, with every vertex after
the source passable.  (Passability of the source itself is checked
separately by the pathfinder, as in the Rust code.) -/
inductive ReachK (pass : ℕ × ℕ → Bool) (s : ℕ × ℕ) : ℕ → ℕ × ℕ → Prop
  | refl : ReachK pass s 0 s
  | step {n : ℕ} {u v : ℕ × ℕ} : ReachK pass s n u → adjQ u v →
      pass v = true → ReachK pass s (n + 1) v

/-- Reachability through passable cells. -/
def reachQ (pass : ℕ × ℕ → Bool) (s v : ℕ × ℕ) : Prop :=
  ∃ n, ReachK pass s n v

/-- Graph distance: the least walk length (0 on unreachable pairs, which are
always guarded by a `reachQ` hypothesis). -/
noncomputable def gdist (pass : ℕ × ℕ → Bool) (s v : ℕ × ℕ) : ℕ :=
  sInf { n | ReachK pass s n v }

/-- Cells of the `w × h` grid still unvisited in a BFS state. -/
def unmarkedCount (w h : ℕ) (st : BfsState) : ℕ :=
  ((Finset.range w ×ˢ Finset.range h).filter
    (fun p => st.prev p = none)).card

/-- The BFS loop invariant: the start is its own parent; every other visited
cell has a visited parent adjacent to it, one closer to the start than
itself; queued cells are visited; the queue splits into a nonempty
front layer at distance `k` and a back layer at distance `k + 1`, with every
reachable passable cell at distance at most `k` already visited (or the
queue is empty and every reachable passable cell is visited); visited cells
no longer queued have all their passable neighbours visited; and visited
cells are reachable. -/
structure BfsInv (pass : ℕ × ℕ → Bool) (s : ℕ × ℕ) (st : BfsState) : Prop
    where
  start_marked : st.prev s = some s
  parentF : ∀ p, p ≠ s → ∀ q, st.prev p = some q → adjQ q p ∧
    pass p = true ∧ (st.prev q).isSome = true ∧
    gdist pass s p = gdist pass s q + 1
  queue_marked : ∀ p ∈ st.queue, (st.prev p).isSome = true
  layers : (st.queue = [] ∧
      ∀ p, reachQ pass s p → pass p = true → (st.prev p).isSome = true) ∨
    (∃ k qa qb, st.queue = qa ++ qb ∧ qa ≠ [] ∧
      (∀ p ∈ qa, gdist pass s p = k) ∧
      (∀ p ∈ qb, gdist pass s p = k + 1) ∧
      (∀ p, reachQ pass s p → pass p = true → gdist pass s p ≤ k →
        (st.prev p).isSome = true))
  expanded : ∀ p, (st.prev p).isSome = true → p ∉ st.queue →
    ∀ q, adjQ p q → pass q = true → (st.prev q).isSome = true
  marked_reach : ∀ p, (st.prev p).isSome = true → reachQ pass s p

/-- The guards of `next_step_cell` on one cell, as a proposition: the
integer cell coordinates are nonnegative and inside the `w × h` grid. -/
def cellInGrid (w h : ℕ) (c : ℤ × ℤ) : Prop :=
  0 ≤ c.1 ∧ 0 ≤ c.2 ∧ c.1.toNat < w ∧ c.2.toNat < h

/-- 1×3 all-Open test grid. -/
def rowMaze : Maze := [[' ', ' ', ' ']]

/-- 1×1 all-Open test grid. -/
def cellMaze : Maze := [[' ']]

/-- An active chasing enemy with 1 s of memory, 0.5 s cooldown maximum and a
negative vision range (so it never sees the player). -/
def c7enemy : Enemy :=
  { x := 0, y := 0, a := 0, active := true, fov := 0, range := -1,
    speed_patrol := 50, speed_chase := 115, state := EnemyState.Chase,
    cooldown := 0, cooldown_max := 1/2, patrol_turn_timer := 0,
    last_face := 'S', path_recalc_timer := 0, last_seen_x := 0,
    last_seen_y := 0, has_last_seen := false, memory_time := 1 }

/-- Five frames: 0.6 s, 0.6 s, 0.3 s, 0.3 s, 0.3 s. -/
def c7frames : List Frame :=
  [{ px := 0, py := 0, dt := 3/5 }, { px := 0, py := 0, dt := 3/5 },
   { px := 0, py := 0, dt := 3/10 }, { px := 0, py := 0, dt := 3/10 },
   { px := 0, py := 0, dt := 3/10 }]

/-- 5×5 test grid, all Open except a single Wall cell at column 4, row 3. -/
def mazeC1 : Maze :=
  [[' ', ' ', ' ', ' ', ' '],
   [' ', ' ', ' ', ' ', ' '],
   [' ', ' ', ' ', ' ', ' '],
   [' ', ' ', ' ', ' ', '#'],
   [' ', ' ', ' ', ' ', ' ']]

end MazeGame

namespace MazeGame

/-- Doc: helper — one `try_move_with_slide` step preserves the sampled
free-circle invariant. -/
theorem try_move_preserves_free (m : Maze) (block : ℕ) (x y dx dy : ℚ)
    (h : is_free_radius m block x y 10 = true) :
    is_free_radius m block (try_move_with_slide m block x y dx dy).1.1
      (try_move_with_slide m block x y dx dy).1.2 10 = true := by
  unfold try_move_with_slide
  by_cases h1 : is_free_radius m block (x + dx) y 10 = true
  · simp only [h1, if_true]
    by_cases h2 : is_free_radius m block (x + dx) (y + dy) 10 = true
    · simpa [h2]
    · simp only [Bool.not_eq_true] at h2; simp [h2, h1]
  · simp only [Bool.not_eq_true] at h1
    simp only [h1, if_false]
    by_cases h2 : is_free_radius m block x (y + dy) 10 = true
    · simpa [h2]
    · simp only [Bool.not_eq_true] at h2; simp [h2, h]

/-- C1 (amended): for every maze, block size and start position whose sampled
collision circle (centre plus 8 perimeter points at radius 10) lies entirely
in traversable cells, after any sequence of `try_move_with_slide` calls the
*sampled* collision circle still lies entirely in traversable cells. -/
theorem c1_sampled_circle_invariant (m : Maze) (block : ℕ) (x y : ℚ)
    (ds : List (ℚ × ℚ)) (h : is_free_radius m block x y 10 = true) :
    is_free_radius m block (moveSeq m block (x, y) ds).1
      (moveSeq m block (x, y) ds).2 10 = true := by
  induction ds generalizing x y with
  | nil => simpa [moveSeq]
  | cons d ds ih =>
      have hstep := try_move_preserves_free m block x y d.1 d.2 h
      have : moveSeq m block (x, y) (d :: ds) =
          moveSeq m block ((try_move_with_slide m block x y d.1 d.2).1) ds := by
        simp [moveSeq]
      rw [this]
      exact ih _ _ hstep

/-- Doc: helper — concrete evaluation of the sampled collision circle at
`(12.5, 12.5)` on `mazeC1` with block size 5. -/
theorem mazeC1_free_at_center : is_free_radius mazeC1 5 (25/2) (25/2) 10 = true := by
  show (is_cell_free mazeC1 5 (25/2) (25/2) &&
    (List.range 8).all fun k =>
      is_cell_free mazeC1 5 (25/2 + 10 * cosOct k) (25/2 + 10 * sinOct k)) = true
  have h8 : List.range 8 = [0, 1, 2, 3, 4, 5, 6, 7] := by decide
  rw [h8]
  simp only [List.all_cons, List.all_nil, Bool.and_true, Bool.and_eq_true]
  refine ⟨?_, ?_, ?_, ?_, ?_, ?_, ?_, ?_, ?_⟩ <;>
    · simp only [is_cell_free, cosOct, sinOct, charFree, mazeC1]
      norm_num
      try decide

/-- C1 (counterexample to the claim as stated): on a 5×5 grid with a single
Wall cell at cell `(4, 3)`, block size 5, the position `(12.5, 12.5)` has its
entire sampled collision circle in traversable cells (so the hypothesis of the
claim holds, and the empty sequence of `try_move_with_slide` calls leaves the
mover there), yet the *full* collision circle of radius 10 does overlap the
Wall cell: the disk point `(21.6, 16.3)` is at squared distance
`97.25 ≤ 100` from the centre and lies in the Wall cell `(4, 3)`. -/
theorem c1_full_circle_counterexample :
    is_free_radius mazeC1 5 (25/2) (25/2) 10 = true ∧
      moveSeq mazeC1 5 (25/2, 25/2) [] = (25/2, 25/2) ∧
      circleOverlapsWall mazeC1 5 (25/2) (25/2) 10 := by
  refine ⟨mazeC1_free_at_center, rfl, ⟨108/5, 163/10, by norm_num, '#', ?_, rfl⟩⟩
  simp only [cellCharAt, mazeC1]
  norm_num
  decide

/-- C1 (witness): the amended invariant applied on the concrete 5×5 grid at
`(12.5, 12.5)` with a one-step movement sequence. -/
theorem c1_sampled_circle_invariant_witness :
    is_free_radius mazeC1 5 (25/2) (25/2) 10 = true ∧
      is_free_radius mazeC1 5
        (moveSeq mazeC1 5 (25/2, 25/2) [(1, -1)]).1
        (moveSeq mazeC1 5 (25/2, 25/2) [(1, -1)]).2 10 = true :=
  ⟨mazeC1_free_at_center, c1_sampled_circle_invariant mazeC1 5 (25/2) (25/2)
    [(1, -1)] mazeC1_free_at_center⟩

/-- Doc: helper — full characterisation of `cast_ray_aux` starting at sample
index `k₀`, given the first index `K` whose accumulated distance exceeds
`maxR` and enough fuel to reach it. -/
theorem cast_ray_aux_spec (m : Maze) (block : ℕ) (ox oy c s maxR step : ℚ)
    (K : ℕ) (hK : maxR < (K : ℚ) * step)
    (hKmin : ∀ j : ℕ, j < K → (j : ℚ) * step ≤ maxR) :
    ∀ n k₀ : ℕ, k₀ ≤ K → K + 1 ≤ k₀ + n →
      (∃ k : ℕ, k₀ ≤ k ∧ k ≤ K ∧
          cast_ray_aux m block ox oy c s maxR step n ((k₀ : ℚ) * step) =
            some ((k : ℚ) * step) ∧
          raySampleFree m block ox oy c s step k = false ∧
          ∀ j : ℕ, k₀ ≤ j → j < k →
            raySampleFree m block ox oy c s step j = true ∧
              (j : ℚ) * step ≤ maxR) ∨
      (cast_ray_aux m block ox oy c s maxR step n ((k₀ : ℚ) * step) = none ∧
        ∀ j : ℕ, k₀ ≤ j → j ≤ K →
          raySampleFree m block ox oy c s step j = true) := by
  intro n
  induction n with
  | zero => intro k₀ hk hn; omega
  | succ n ih =>
      intro k₀ hk hn
      rw [cast_ray_aux]
      by_cases hfree : raySampleFree m block ox oy c s step k₀ = false
      · rw [if_pos]
        · exact Or.inl ⟨k₀, le_refl _, hk, rfl, hfree, fun j h1 h2 => by omega⟩
        · exact hfree
      · have hfree' : raySampleFree m block ox oy c s step k₀ = true := by
          simpa using hfree
        rw [if_neg (by simp [raySampleFree] at hfree' ⊢; simp [hfree'])]
        by_cases hover : maxR < (k₀ : ℚ) * step
        · have hk0 : k₀ = K := by
            rcases lt_or_eq_of_le hk with h | h
            · exact absurd (hKmin k₀ h) (not_le.mpr hover)
            · exact h
          rw [if_pos hover]
          refine Or.inr ⟨rfl, fun j h1 h2 => ?_⟩
          have : j = k₀ := by omega
          rwa [this]
        · rw [if_neg hover]
          have hlt : k₀ < K := by
            rcases lt_or_eq_of_le hk with h | h
            · exact h
            · exact absurd (h ▸ hK) hover
          have hcast : (k₀ : ℚ) * step + step = ((k₀ + 1 : ℕ) : ℚ) * step := by
            push_cast; ring
          rw [hcast]
          rcases ih (k₀ + 1) hlt (by omega) with
            ⟨k, h1, h2, h3, h4, h5⟩ | ⟨h1, h2⟩
          · refine Or.inl ⟨k, by omega, h2, h3, h4, fun j hj1 hj2 => ?_⟩
            rcases Nat.eq_or_lt_of_le hj1 with h | h
            · exact h ▸ ⟨hfree', not_lt.mp hover⟩
            · exact h5 j h hj2
          · refine Or.inr ⟨h1, fun j hj1 hj2 => ?_⟩
            rcases Nat.eq_or_lt_of_le hj1 with h | h
            · exact h ▸ hfree'
            · exact h2 j h hj2

/-- C2: for every grid, origin, direction, and max range (and positive cell
size), the modelled ray query terminates with one of exactly two outcomes:
the accumulated distance of the first sampled non-traversable (Wall or
out-of-bounds) point, every earlier sample being traversable and within
range — or "no hit" (`none`), in which case every sample up to the first
accumulated distance exceeding `maxRange` is traversable. -/
theorem c2_cast_ray_terminates (m : Maze) (block : ℕ) (ox oy c s maxRange : ℚ)
    (hb : 0 < block) :
    (∃ k : ℕ,
        cast_ray m block ox oy c s maxRange =
          some ((k : ℚ) * ((block : ℚ) / 16)) ∧
        raySampleFree m block ox oy c s ((block : ℚ) / 16) k = false ∧
        ∀ j : ℕ, j < k →
          raySampleFree m block ox oy c s ((block : ℚ) / 16) j = true ∧
            (j : ℚ) * ((block : ℚ) / 16) ≤ maxRange) ∨
    (cast_ray m block ox oy c s maxRange = none ∧
      ∃ k : ℕ, maxRange < (k : ℚ) * ((block : ℚ) / 16) ∧
        ∀ j : ℕ, j ≤ k →
          raySampleFree m block ox oy c s ((block : ℚ) / 16) j = true) := by
  set step : ℚ := (block : ℚ) / 16 with hstepdef
  have hstep : 0 < step := by
    have : (0 : ℚ) < (block : ℚ) := by exact_mod_cast hb
    positivity
  have hex : ∃ k : ℕ, maxRange < (k : ℚ) * step := by
    obtain ⟨k, hk⟩ := exists_nat_gt (maxRange / step)
    exact ⟨k, by rwa [div_lt_iff hstep] at hk⟩
  classical
  set K := Nat.find hex with hKdef
  have hK : maxRange < (K : ℚ) * step := Nat.find_spec hex
  have hKmin : ∀ j : ℕ, j < K → (j : ℚ) * step ≤ maxRange := fun j hj =>
    not_lt.mp (Nat.find_min hex hj)
  have hfuel : K + 1 ≤ 0 + ((⌈maxRange / step⌉).toNat + 2) := by
    rcases Nat.eq_zero_or_pos K with h0 | hpos
    · omega
    · have hle : ((K - 1 : ℕ) : ℚ) * step ≤ maxRange := hKmin _ (by omega)
      have hdiv : ((K - 1 : ℕ) : ℚ) ≤ maxRange / step :=
        (le_div_iff hstep).mpr hle
      have hceil : ((K - 1 : ℕ) : ℤ) ≤ ⌈maxRange / step⌉ := by
        have := le_trans hdiv (Int.le_ceil (maxRange / step))
        exact_mod_cast this
      have htn : (K - 1 : ℕ) ≤ (⌈maxRange / step⌉).toNat := by
        have h2 := Int.toNat_le_toNat hceil
        simpa using h2
      omega
  have := cast_ray_aux_spec m block ox oy c s maxRange step K hK hKmin
    ((⌈maxRange / step⌉).toNat + 2) 0 (Nat.zero_le _) hfuel
  have hzero : ((0 : ℕ) : ℚ) * step = 0 := by norm_num
  rw [hzero] at this
  rcases this with ⟨k, _, _, h3, h4, h5⟩ | ⟨h1, h2⟩
  · exact Or.inl ⟨k, h3, h4, fun j hj => h5 j (Nat.zero_le _) hj⟩
  · exact Or.inr ⟨h1, K, hK, fun j hj => h2 j (Nat.zero_le _) hj⟩

/-- C2 (witness): the characterisation applied on the 5×5 grid with block
size 5, origin `(12.5, 12.5)`, direction `(1, 0)` and range 100. -/
theorem c2_cast_ray_terminates_witness :
    0 < 5 ∧
      ((∃ k : ℕ,
          cast_ray mazeC1 5 (25/2) (25/2) 1 0 100 =
            some ((k : ℚ) * ((5 : ℚ) / 16)) ∧
          raySampleFree mazeC1 5 (25/2) (25/2) 1 0 ((5 : ℚ) / 16) k = false ∧
          ∀ j : ℕ, j < k →
            raySampleFree mazeC1 5 (25/2) (25/2) 1 0 ((5 : ℚ) / 16) j = true ∧
              (j : ℚ) * ((5 : ℚ) / 16) ≤ 100) ∨
      (cast_ray mazeC1 5 (25/2) (25/2) 1 0 100 = none ∧
        ∃ k : ℕ, (100 : ℚ) < (k : ℚ) * ((5 : ℚ) / 16) ∧
          ∀ j : ℕ, j ≤ k →
            raySampleFree mazeC1 5 (25/2) (25/2) 1 0 ((5 : ℚ) / 16) j = true)) := by
  refine ⟨by norm_num, ?_⟩
  have h := c2_cast_ray_terminates mazeC1 5 (25/2) (25/2) 1 0 100 (by norm_num)
  simpa using h

/-- Doc: helper — `charFree` is unchanged by the Exit-to-Open character map. -/
theorem charFree_openify_char (c : Char) :
    charFree (if c = 'g' then ' ' else c) = charFree c := by
  by_cases h : c = 'g' <;> simp [h, charFree]

/-- Doc: helper — rows of the Exit-to-Open rewritten maze. -/
theorem openify_getD_row (m : Maze) (j : ℕ) :
    (openifyExits m).getD j [] =
      (m.getD j []).map fun ch => if ch = 'g' then ' ' else ch := by
  induction m generalizing j with
  | nil => cases j <;> rfl
  | cons row rest ih =>
      cases j with
      | zero => rfl
      | succ n => simpa [openifyExits] using ih n

/-- Doc: helper — the Exit-to-Open rewrite keeps the row count. -/
theorem openify_length (m : Maze) : (openifyExits m).length = m.length :=
  List.length_map _ _

/-- Doc: helper — looked-up characters of a rewritten row are free exactly
when the original ones are. -/
theorem openify_charFree_row (row : List Char) :
    ∀ i : ℕ,
      charFree ((row.map fun ch => if ch = 'g' then ' ' else ch).getD i '#') =
        charFree (row.getD i '#') := by
  induction row with
  | nil => intro i; rfl
  | cons c cs ih =>
      intro i
      cases i with
      | zero => simpa using charFree_openify_char c
      | succ n => simpa using ih n

/-- Doc: helper — the looked-up character of the rewritten maze is free
exactly when the original one is. -/
theorem openify_charFree_at (m : Maze) (j i : ℕ) :
    charFree (((openifyExits m).getD j []).getD i '#') =
      charFree ((m.getD j []).getD i '#') := by
  rw [openify_getD_row]
  exact openify_charFree_row _ i

/-- Doc: helper — `is_cell_free` is unchanged by rewriting Exit cells to Open
cells. -/
theorem is_cell_free_openify (m : Maze) (block : ℕ) (wx wy : ℚ) :
    is_cell_free (openifyExits m) block wx wy = is_cell_free m block wx wy := by
  unfold is_cell_free
  rw [openify_charFree_at, openify_length, openify_getD_row m 0,
    List.length_map]

/-- Doc: helper — `cast_ray_aux` is unchanged by rewriting Exit cells to Open
cells. -/
theorem cast_ray_aux_openify (m : Maze) (block : ℕ)
    (ox oy c s maxR step : ℚ) :
    ∀ (n : ℕ) (d : ℚ),
      cast_ray_aux (openifyExits m) block ox oy c s maxR step n d =
        cast_ray_aux m block ox oy c s maxR step n d := by
  intro n
  induction n with
  | zero => intro d; rfl
  | succ n ih =>
      intro d
      rw [cast_ray_aux, cast_ray_aux, is_cell_free_openify, ih]

/-- C3: the ray query treats Exit (`'g'`) cells exactly as Open cells: for
every origin, direction, grid and range, replacing every Exit cell by an Open
cell leaves the result of `cast_ray` unchanged, so the march never stops at an
Exit cell and passes it exactly as through Open space. -/
theorem c3_cast_ray_exit_transparent (m : Maze) (block : ℕ)
    (ox oy c s maxRange : ℚ) :
    cast_ray (openifyExits m) block ox oy c s maxRange =
      cast_ray m block ox oy c s maxRange := by
  unfold cast_ray
  exact cast_ray_aux_openify m block ox oy c s maxRange _ _ _

/-- Doc: helper — an out-of-bounds point is never a free cell. -/
theorem outOfBounds_not_free (m : Maze) (block : ℕ) (wx wy : ℚ)
    (h : outOfBounds m block wx wy) : is_cell_free m block wx wy = false := by
  unfold outOfBounds at h
  unfold is_cell_free
  rcases h with h | h | h | h
  · rw [if_pos (Or.inl h)]
  · rw [if_pos (Or.inr h)]
  · by_cases h1 : ⌊wx / (block : ℚ)⌋ < 0 ∨ ⌊wy / (block : ℚ)⌋ < 0
    · rw [if_pos h1]
    · rw [if_neg h1, if_pos (Or.inl h)]
  · by_cases h1 : ⌊wx / (block : ℚ)⌋ < 0 ∨ ⌊wy / (block : ℚ)⌋ < 0
    · rw [if_pos h1]
    · rw [if_neg h1, if_pos (Or.inr h)]

/-- C4: for every origin lying outside the grid bounds and every direction and
range, the modelled ray query returns an immediate wall hit at distance 0 (the
total Lean model propagates no panic or indexing error: out-of-bounds input is
resolved to the safe default). -/
theorem c4_cast_ray_oob_zero (m : Maze) (block : ℕ) (ox oy c s maxRange : ℚ)
    (h : outOfBounds m block ox oy) :
    cast_ray m block ox oy c s maxRange = some 0 := by
  unfold cast_ray
  rw [cast_ray_aux]
  rw [if_pos]
  have hfree : is_cell_free m block (ox + 0 * c) (oy + 0 * s) = false := by
    have : ox + 0 * c = ox := by ring
    rw [this]
    have : oy + 0 * s = oy := by ring
    rw [this]
    exact outOfBounds_not_free m block ox oy h
  exact hfree

/-- C4 (witness): origin `(-1, 2)` is outside the 5×5 grid with block size 5
(negative cell index), and the ray query returns `some 0` there. -/
theorem c4_cast_ray_oob_zero_witness :
    outOfBounds mazeC1 5 (-1) 2 ∧
      cast_ray mazeC1 5 (-1) 2 (3/5) (4/5) 100 = some 0 := by
  have h : outOfBounds mazeC1 5 (-1) 2 := by
    unfold outOfBounds
    left
    norm_num
  exact ⟨h, c4_cast_ray_oob_zero mazeC1 5 (-1) 2 (3/5) (4/5) 100 h⟩

/-- Doc: helper — keep-band of the label `'S'`. -/
theorem in_keep_S_eval (d : ℚ) :
    in_keep 'S' d = decide (-60 - 12 < d ∧ d ≤ 60 + 12) := rfl

/-- Doc: helper — keep-band of the label `'E'`. -/
theorem in_keep_E_eval (d : ℚ) :
    in_keep 'E' d = decide (60 - 12 < d ∧ d ≤ 150 + 12) := rfl

/-- Doc: helper — keep-band of the label `'W'`. -/
theorem in_keep_W_eval (d : ℚ) :
    in_keep 'W' d = decide (-150 - 12 ≤ d ∧ d < -60 + 12) := rfl

/-- Doc: helper — keep-band of the label `'N'`. -/
theorem in_keep_N_eval (d : ℚ) :
    in_keep 'N' d = decide (d ≤ -150 + 12 ∨ 150 - 12 < d) := rfl

/-- Doc: helper — the subtracting normalisation loop is the identity at or
below `PI`. -/
theorem normSubLoop_id (n : ℕ) (a : ℚ) (h : a ≤ piQ) : normSubLoop n a = a := by
  cases n with
  | zero => rfl
  | succ n => rw [normSubLoop, if_neg (not_lt.mpr h)]

/-- Doc: helper — the adding normalisation loop is the identity at or above
`-PI`. -/
theorem normAddLoop_id (n : ℕ) (a : ℚ) (h : -piQ ≤ a) : normAddLoop n a = a := by
  cases n with
  | zero => rfl
  | succ n => rw [normAddLoop, if_neg (not_lt.mpr h)]

/-- Doc: helper — `normalize_angle` is the identity on `[-PI, PI]`. -/
theorem normalize_angle_id (a : ℚ) (h1 : -piQ ≤ a) (h2 : a ≤ piQ) :
    normalize_angle a = a := by
  unfold normalize_angle
  rw [normSubLoop_id _ _ h2, normAddLoop_id _ _ h1]

/-- C5: `sees_player` is true exactly when the machine distance to the target
is at most the vision range, the absolute normalized angle between the
facing and the direction to the target is at most half the FOV (closed
boundary on both comparisons), and the sampled line of sight is clear. -/
theorem c5_sees_player_iff (ops : FloatOps) (e : Enemy) (m : Maze)
    (px py : ℚ) (block : ℕ) :
    sees_player ops e m px py block = true ↔
      (ops.sqrtQ ((px - e.x) * (px - e.x) + (py - e.y) * (py - e.y)) ≤
          e.range ∧
        |normalize_angle (ops.atan2Q (py - e.y) (px - e.x) - e.a)| ≤
          e.fov / 2 ∧
        line_of_sight_clear ops m e.x e.y px py block = true) := by
  unfold sees_player
  have hhalf : e.fov * (1/2) = e.fov / 2 := by ring
  rw [hhalf]
  by_cases h1 : e.range <
      ops.sqrtQ ((px - e.x) * (px - e.x) + (py - e.y) * (py - e.y))
  · rw [if_pos h1]
    simp only [Bool.false_eq_true, false_iff, not_and]
    intro hc
    exact absurd hc (not_le.mpr h1)
  · rw [if_neg h1]
    by_cases h2 : e.fov / 2 <
        |normalize_angle (ops.atan2Q (py - e.y) (px - e.x) - e.a)|
    · rw [if_pos h2]
      simp only [Bool.false_eq_true, false_iff, not_and]
      intro _ hc
      exact absurd hc (not_le.mpr h2)
    · rw [if_neg h2]
      constructor
      · intro hlos
        exact ⟨not_lt.mp h1, not_lt.mp h2, hlos⟩
      · intro hc
        exact hc.2.2

/-- C8 (counterexample to the claim as stated): a patrolling enemy at
`(5, 5)` in the all-Wall grid is blocked by the resolver; the code then
changes the heading by exactly 0.5 rad — *not* strictly larger than the
periodic ±0.6 rad patrol turn — and the turn timer stays at 4.9 s, *not*
shorter than the 4.9 s it would be without the blocked-branch adjustment. -/
theorem c8_counterexample :
    (try_move_with_slide wallMaze 10 (patrol_turn_step c8enemy (1/10)).x
        (patrol_turn_step c8enemy (1/10)).y
        (zeroOps.cosQ (patrol_turn_step c8enemy (1/10)).a *
          c8enemy.speed_patrol * (1/10))
        (zeroOps.sinQ (patrol_turn_step c8enemy (1/10)).a *
          c8enemy.speed_patrol * (1/10))).2 = false ∧
      (patrol zeroOps c8enemy wallMaze 10 (1/10) false).a - c8enemy.a =
        1/2 ∧
      ¬((3/5 : ℚ) <
        |(patrol zeroOps c8enemy wallMaze 10 (1/10) false).a - c8enemy.a|) ∧
      ¬((patrol zeroOps c8enemy wallMaze 10 (1/10) false).patrol_turn_timer <
        (patrol_turn_step c8enemy (1/10)).patrol_turn_timer) := by
  have hchar : ∀ jt it : ℕ,
      charFree ((wallMaze.getD jt []).getD it '#') = false := by
    intro jt it
    rcases jt with _ | jt
    · rcases it with _ | it <;> rfl
    · rcases jt with _ | jt <;> rcases it with _ | it <;> rfl
  have hfree : ∀ wx wy : ℚ, is_cell_free wallMaze 10 wx wy = false := by
    intro wx wy
    unfold is_cell_free
    split_ifs with h1 h2
    · rfl
    · rfl
    · exact hchar _ _
  have hradius : ∀ wx wy r : ℚ, is_free_radius wallMaze 10 wx wy r = false := by
    intro wx wy r
    unfold is_free_radius
    rw [hfree]
    rfl
  have hmove : ∀ x y dx dy : ℚ,
      try_move_with_slide wallMaze 10 x y dx dy = ((x, y), false) := by
    intro x y dx dy
    unfold try_move_with_slide
    simp only [hradius]
    simp
  have hstep : patrol_turn_step c8enemy (1/10) =
      { c8enemy with patrol_turn_timer := 49/10 } := by
    unfold patrol_turn_step
    rw [if_neg]
    · have : c8enemy.patrol_turn_timer - 1/10 = 49/10 := by
        show (5 : ℚ) - 1/10 = 49/10
        norm_num
      rw [this]
    · show ¬(c8enemy.patrol_turn_timer - 1/10 ≤ 0)
      show ¬((5 : ℚ) - 1/10 ≤ 0)
      norm_num
  have hnorm : normalize_angle (c8enemy.a + 1/2) = 1/2 := by
    have ha : c8enemy.a + 1/2 = (1/2 : ℚ) := by
      show (0 : ℚ) + 1/2 = 1/2
      norm_num
    rw [ha]
    exact normalize_angle_id _ (by unfold piQ; norm_num)
      (by unfold piQ; norm_num)
  have hpatrol : patrol zeroOps c8enemy wallMaze 10 (1/10) false =
      { c8enemy with
        patrol_turn_timer := max (49/10 : ℚ) (1/5)
        a := (1/2 : ℚ) } := by
    unfold patrol
    simp only [hstep, hmove]
    norm_num
    exact hnorm
  have hmax : max (49/10 : ℚ) (1/5) = 49/10 := by
    rw [max_eq_left (by norm_num : (1/5 : ℚ) ≤ 49/10)]
  refine ⟨?_, ?_, ?_, ?_⟩
  · rw [hmove]
  · rw [hpatrol]
    show (1/2 : ℚ) - c8enemy.a = 1/2
    show (1/2 : ℚ) - 0 = 1/2
    norm_num
  · rw [hpatrol]
    show ¬((3/5 : ℚ) < |(1/2 : ℚ) - c8enemy.a|)
    show ¬((3/5 : ℚ) < |(1/2 : ℚ) - 0|)
    rw [show |(1/2 : ℚ) - 0| = 1/2 by norm_num]
    norm_num
  · rw [hpatrol, hstep]
    show ¬(max (49/10 : ℚ) (1/5) < 49/10)
    rw [hmax]
    norm_num

/-- C8 (amended): in Patrol (or slow Cooldown wandering), whenever the
collision resolver reports no movement for the frame, the agent adds exactly
0.5 rad to its (post-periodic-turn) heading — a change strictly *smaller*
than the ±0.6 rad periodic patrol turn — and the next turn timer is *raised*
to at least 0.2 s, never shortened below what it would otherwise be. -/
theorem c8_blocked_patrol (ops : FloatOps) (e : Enemy) (m : Maze) (block : ℕ)
    (dt : ℚ) (slow : Bool) (e1 : Enemy) (sp : ℚ)
    (he1 : e1 = patrol_turn_step e dt)
    (hsp : sp = if slow then e.speed_patrol * (3/5) else e.speed_patrol)
    (hblocked : (try_move_with_slide m block e1.x e1.y
        (ops.cosQ e1.a * sp * dt) (ops.sinQ e1.a * sp * dt)).2 = false) :
    (patrol ops e m block dt slow).a = normalize_angle (e1.a + 1/2) ∧
      (patrol ops e m block dt slow).patrol_turn_timer =
        max e1.patrol_turn_timer (1/5) ∧
      e1.patrol_turn_timer ≤ (patrol ops e m block dt slow).patrol_turn_timer ∧
      (1/5 : ℚ) ≤ (patrol ops e m block dt slow).patrol_turn_timer ∧
      (1/2 : ℚ) < 3/5 := by
  subst he1 hsp
  simp only [patrol]
  rw [hblocked]
  simp only [Bool.false_eq_true, if_false]
  exact ⟨trivial, trivial, le_max_left _ _, le_max_right _ _, by norm_num⟩

/-- C8 (witness): the amended blocked-patrol behaviour at the concrete
blocked instance of the counterexample. -/
theorem c8_blocked_patrol_witness :
    (try_move_with_slide wallMaze 10 (patrol_turn_step c8enemy (1/10)).x
        (patrol_turn_step c8enemy (1/10)).y
        (zeroOps.cosQ (patrol_turn_step c8enemy (1/10)).a *
          c8enemy.speed_patrol * (1/10))
        (zeroOps.sinQ (patrol_turn_step c8enemy (1/10)).a *
          c8enemy.speed_patrol * (1/10))).2 = false ∧
      (patrol zeroOps c8enemy wallMaze 10 (1/10) false).a =
        normalize_angle ((patrol_turn_step c8enemy (1/10)).a + 1/2) ∧
      (patrol zeroOps c8enemy wallMaze 10 (1/10) false).patrol_turn_timer =
        max (patrol_turn_step c8enemy (1/10)).patrol_turn_timer (1/5) := by
  have hblocked : (try_move_with_slide wallMaze 10
      (patrol_turn_step c8enemy (1/10)).x (patrol_turn_step c8enemy (1/10)).y
      (zeroOps.cosQ (patrol_turn_step c8enemy (1/10)).a *
        c8enemy.speed_patrol * (1/10))
      (zeroOps.sinQ (patrol_turn_step c8enemy (1/10)).a *
        c8enemy.speed_patrol * (1/10))).2 = false := c8_counterexample.1
  have h := c8_blocked_patrol zeroOps c8enemy wallMaze 10 (1/10) false
    (patrol_turn_step c8enemy (1/10))
    (if false then c8enemy.speed_patrol * (3/5) else c8enemy.speed_patrol)
    rfl rfl (by simpa using hblocked)
  exact ⟨hblocked, by simpa using h.1, by simpa using h.2.1⟩

/-- C9 (counterexample to the claim as stated): with the camera placed so the
angle from the agent to the viewer is 3 rad (≈172° behind the agent), the
stored hysteresis label of a fresh agent changes from `'S'` to `'N'` during
the query — `facing_key_for_camera` takes `&mut self` and writes
`last_face`, so it does not leave the entire agent state unchanged. -/
theorem c9_counterexample :
    (Enemy.new 0 0 0).last_face = 'S' ∧
      ((facing_key_for_camera atan3Ops (Enemy.new 0 0 0) 1 1).2).last_face =
        'N' := by
  constructor
  · rfl
  · have hnorm : normalize_angle (atan3Ops.atan2Q ((1 : ℚ) - (Enemy.new 0 0 0).y)
        ((1 : ℚ) - (Enemy.new 0 0 0).x) - (Enemy.new 0 0 0).a) = 3 := by
      show normalize_angle ((3 : ℚ) - 0) = 3
      rw [show (3 : ℚ) - 0 = 3 by norm_num]
      exact normalize_angle_id 3 (by unfold piQ; norm_num)
        (by unfold piQ; norm_num)
    unfold facing_key_for_camera
    rw [hnorm]
    have hdeg : ((3 : ℚ) * 180 / piQ) = 2264924160 / 13176795 := by
      unfold piQ
      norm_num
    rw [hdeg]
    have hkeep : in_keep (Enemy.new 0 0 0).last_face
        ((2264924160 : ℚ) / 13176795) = false := by
      show in_keep 'S' ((2264924160 : ℚ) / 13176795) = false
      rw [in_keep_S_eval, decide_eq_false_iff_not]
      intro hc
      have := hc.2
      norm_num at this
    rw [hkeep]
    have hcand : face_candidate ((2264924160 : ℚ) / 13176795) = 'N' := by
      unfold face_candidate
      norm_num
    simp only [Bool.false_eq_true, if_false, hcand]

/-- C9 (amended): `facing_key_for_camera` changes no agent state except the
stored hysteresis label, which it sets to the returned label (a no-op when
the previous label is kept); the returned label is always one of the four
cardinal labels; and the keep-bands are strictly wider than the enter-bands:
every angle that nominally selects a label also keeps it, while some angles
keep a label they would not select. -/
theorem c9_facing_key_query (ops : FloatOps) (e : Enemy) (cx cy : ℚ) :
    (facing_key_for_camera ops e cx cy).2 =
        { e with last_face := (facing_key_for_camera ops e cx cy).1 } ∧
      ((facing_key_for_camera ops e cx cy).1 = 'N' ∨
        (facing_key_for_camera ops e cx cy).1 = 'E' ∨
        (facing_key_for_camera ops e cx cy).1 = 'S' ∨
        (facing_key_for_camera ops e cx cy).1 = 'W') ∧
      (∀ d : ℚ, in_keep (face_candidate d) d = true) ∧
      (∀ f : Char, f = 'N' ∨ f = 'E' ∨ f = 'S' ∨ f = 'W' →
        ∃ d : ℚ, in_keep f d = true ∧ face_candidate d ≠ f) := by
  refine ⟨?_, ?_, ?_, ?_⟩
  · unfold facing_key_for_camera
    by_cases h : in_keep e.last_face
        (normalize_angle (ops.atan2Q (cy - e.y) (cx - e.x) - e.a) * 180 / piQ)
      = true
    · rw [if_pos h]
    · rw [if_neg h]
  · unfold facing_key_for_camera
    by_cases h : in_keep e.last_face
        (normalize_angle (ops.atan2Q (cy - e.y) (cx - e.x) - e.a) * 180 / piQ)
      = true
    · rw [if_pos h]
      unfold in_keep at h
      split_ifs at h with h1 h2 h3 h4
      · exact Or.inr (Or.inr (Or.inl h1))
      · exact Or.inr (Or.inl h2)
      · exact Or.inr (Or.inr (Or.inr h3))
      · exact Or.inl h4
    · rw [if_neg h]
      unfold face_candidate
      split_ifs with h1 h2 h3
      · exact Or.inr (Or.inr (Or.inl rfl))
      · exact Or.inr (Or.inl rfl)
      · exact Or.inr (Or.inr (Or.inr rfl))
      · exact Or.inl rfl
  · intro d
    unfold face_candidate
    split_ifs with h1 h2 h3
    · rw [in_keep_S_eval, decide_eq_true_eq]
      exact ⟨by linarith [h1.1], by linarith [h1.2]⟩
    · rw [in_keep_E_eval, decide_eq_true_eq]
      exact ⟨by linarith [h2.1], by linarith [h2.2]⟩
    · rw [in_keep_W_eval, decide_eq_true_eq]
      exact ⟨by linarith [h3.1], by linarith [h3.2]⟩
    · rw [in_keep_N_eval, decide_eq_true_eq]
      push_neg at h1 h2 h3
      by_cases hc : d ≤ -60
      · exact Or.inl (by linarith [h3 hc])
      · push_neg at hc
        exact Or.inr (by linarith [h2 (h1 hc)])
  · intro f hf
    rcases hf with h | h | h | h <;> subst h
    · refine ⟨-140, by rw [in_keep_N_eval, decide_eq_true_eq]; norm_num, ?_⟩
      rw [show face_candidate (-140) = 'W' by
        unfold face_candidate; norm_num]
      decide
    · refine ⟨155, by rw [in_keep_E_eval, decide_eq_true_eq]; norm_num, ?_⟩
      rw [show face_candidate 155 = 'N' by unfold face_candidate; norm_num]
      decide
    · refine ⟨65, by rw [in_keep_S_eval, decide_eq_true_eq]; norm_num, ?_⟩
      rw [show face_candidate 65 = 'E' by unfold face_candidate; norm_num]
      decide
    · refine ⟨-155, by rw [in_keep_W_eval, decide_eq_true_eq]; norm_num, ?_⟩
      rw [show face_candidate (-155) = 'N' by unfold face_candidate; norm_num]
      decide

/-- Doc: helper — `patrol` only moves the agent and adjusts its heading and
turn timer; the behaviour state, both countdowns, their maxima, the active
flag, the last-known flag and the vision parameters are untouched. -/
theorem patrol_preserves (ops : FloatOps) (e : Enemy) (m : Maze) (block : ℕ)
    (dt : ℚ) (slow : Bool) :
    (patrol ops e m block dt slow).state = e.state ∧
      (patrol ops e m block dt slow).memory_time = e.memory_time ∧
      (patrol ops e m block dt slow).cooldown = e.cooldown ∧
      (patrol ops e m block dt slow).cooldown_max = e.cooldown_max ∧
      (patrol ops e m block dt slow).active = e.active ∧
      (patrol ops e m block dt slow).has_last_seen = e.has_last_seen ∧
      (patrol ops e m block dt slow).range = e.range := by
  simp only [patrol, patrol_turn_step]
  split_ifs <;> exact ⟨rfl, rfl, rfl, rfl, rfl, rfl, rfl⟩

/-- Doc: helper — `chase` only moves the agent and turns its heading. -/
theorem chase_preserves (ops : FloatOps) (e : Enemy) (px py : ℚ) (m : Maze)
    (block : ℕ) (dt : ℚ) :
    (chase ops e px py m block dt).state = e.state ∧
      (chase ops e px py m block dt).memory_time = e.memory_time ∧
      (chase ops e px py m block dt).cooldown = e.cooldown ∧
      (chase ops e px py m block dt).cooldown_max = e.cooldown_max ∧
      (chase ops e px py m block dt).active = e.active ∧
      (chase ops e px py m block dt).has_last_seen = e.has_last_seen ∧
      (chase ops e px py m block dt).range = e.range := by
  simp [chase]

/-- Doc: helper — `search_last_seen` may clear the last-known flag and
adjusts heading, position and the path timer, but never the behaviour state,
the countdowns, their maxima, the active flag or the vision parameters. -/
theorem search_preserves (ops : FloatOps) (e : Enemy) (m : Maze) (block : ℕ)
    (dt : ℚ) :
    (search_last_seen ops e m block dt).state = e.state ∧
      (search_last_seen ops e m block dt).memory_time = e.memory_time ∧
      (search_last_seen ops e m block dt).cooldown = e.cooldown ∧
      (search_last_seen ops e m block dt).cooldown_max = e.cooldown_max ∧
      (search_last_seen ops e m block dt).active = e.active ∧
      (search_last_seen ops e m block dt).range = e.range := by
  simp only [search_last_seen]
  split_ifs with h1 h2
  · simp
  · cases hns : next_step_towards m block e.x e.y e.last_seen_x e.last_seen_y
      with
    | none => simp [hns]
    | some nv => simp [hns]
  · simp

/-- Doc: helper — the movement phase never changes the behaviour state, the
countdowns, their maxima, the active flag or the vision range; and when the
transitioned state is not Chase it does not touch the last-known flag
either. -/
theorem update_move_preserves (ops : FloatOps) (e1 : Enemy) (sees_now : Bool)
    (px py : ℚ) (m : Maze) (block : ℕ) (dt : ℚ) :
    (update_move ops e1 sees_now px py m block dt).state = e1.state ∧
      (update_move ops e1 sees_now px py m block dt).memory_time =
        e1.memory_time ∧
      (update_move ops e1 sees_now px py m block dt).cooldown = e1.cooldown ∧
      (update_move ops e1 sees_now px py m block dt).cooldown_max =
        e1.cooldown_max ∧
      (update_move ops e1 sees_now px py m block dt).active = e1.active ∧
      (update_move ops e1 sees_now px py m block dt).range = e1.range ∧
      (e1.state ≠ EnemyState.Chase →
        (update_move ops e1 sees_now px py m block dt).has_last_seen =
          e1.has_last_seen) := by
  rcases hstate : e1.state with _ | _ | _
  · -- Patrol
    simp only [update_move, hstate]
    obtain ⟨p1, p2, p3, p4, p5, p6, p7⟩ :=
      patrol_preserves ops e1 m block dt false
    exact ⟨by rw [p1, hstate], p2, p3, p4, p5, p7, fun _ => p6⟩
  · -- Chase
    simp only [update_move, hstate]
    by_cases hsee : sees_now = true
    · rw [if_pos hsee]
      obtain ⟨c1, c2, c3, c4, c5, c6, c7⟩ :=
        chase_preserves ops e1 px py m block dt
      exact ⟨by rw [c1, hstate], c2, c3, c4, c5, c7,
        fun hc => absurd rfl hc⟩
    · rw [if_neg hsee]
      by_cases hl : e1.has_last_seen = true
      · rw [if_pos hl]
        obtain ⟨s1, s2, s3, s4, s5, s6⟩ :=
          search_preserves ops e1 m block dt
        exact ⟨by rw [s1, hstate], s2, s3, s4, s5, s6,
          fun hc => absurd rfl hc⟩
      · rw [if_neg hl]
        exact ⟨hstate, rfl, rfl, rfl, rfl, rfl, fun _ => rfl⟩
  · -- Cooldown
    simp only [update_move, hstate]
    obtain ⟨p1, p2, p3, p4, p5, p6, p7⟩ :=
      patrol_preserves ops e1 m block dt true
    exact ⟨by rw [p1, hstate], p2, p3, p4, p5, p7, fun _ => p6⟩

/-- Doc: helper — the transition phase when the player is not seen: the
exact countdown/state rules of the source, as record equations per current
state, plus preservation of the active flag, the cooldown maximum and the
vision range. -/
theorem update_transition_not_seen (e : Enemy) (px py dt : ℚ) :
    (update_transition e false px py dt).active = e.active ∧
      (update_transition e false px py dt).cooldown_max = e.cooldown_max ∧
      (update_transition e false px py dt).range = e.range ∧
      (e.state = EnemyState.Chase → 0 < e.memory_time →
        update_transition e false px py dt =
          { e with memory_time := e.memory_time - dt }) ∧
      (e.state = EnemyState.Chase → ¬0 < e.memory_time →
        update_transition e false px py dt =
          { e with state := EnemyState.Cooldown, cooldown := e.cooldown_max,
                   has_last_seen := false }) ∧
      (e.state = EnemyState.Cooldown → e.cooldown - dt ≤ 0 →
        update_transition e false px py dt =
          { e with cooldown := e.cooldown - dt,
                   state := EnemyState.Patrol }) ∧
      (e.state = EnemyState.Cooldown → ¬e.cooldown - dt ≤ 0 →
        update_transition e false px py dt =
          { e with cooldown := e.cooldown - dt }) ∧
      (e.state = EnemyState.Patrol →
        update_transition e false px py dt = e) := by
  rcases hstate : e.state with _ | _ | _
  · -- Patrol
    simp only [update_transition, Bool.false_eq_true, if_false, hstate]
    refine ⟨trivial, trivial, trivial, ?_, ?_, ?_, ?_, fun _ => trivial⟩ <;>
      · intro hc; simp at hc
  · -- Chase
    simp only [update_transition, Bool.false_eq_true, if_false, hstate]
    by_cases hmem : 0 < e.memory_time
    · rw [if_pos hmem]
      refine ⟨rfl, rfl, rfl, fun _ _ => rfl, ?_, ?_, ?_, ?_⟩
      · intro _ hc; exact absurd hmem hc
      · intro hc; simp at hc
      · intro hc; simp at hc
      · intro hc; simp at hc
    · rw [if_neg hmem]
      refine ⟨rfl, rfl, rfl, ?_, fun _ _ => rfl, ?_, ?_, ?_⟩
      · intro _ hc; exact absurd hc hmem
      · intro hc; simp at hc
      · intro hc; simp at hc
      · intro hc; simp at hc
  · -- Cooldown
    simp only [update_transition, Bool.false_eq_true, if_false, hstate]
    by_cases hcd : e.cooldown - dt ≤ 0
    · rw [if_pos hcd]
      refine ⟨rfl, rfl, rfl, ?_, ?_, fun _ _ => rfl, ?_, ?_⟩
      · intro hc; simp at hc
      · intro hc; simp at hc
      · intro _ hc; exact absurd hcd hc
      · intro hc; simp at hc
    · rw [if_neg hcd]
      refine ⟨rfl, rfl, rfl, ?_, ?_, ?_, fun _ _ => rfl, ?_⟩
      · intro hc; simp at hc
      · intro hc; simp at hc
      · intro _ hc; exact absurd hc hcd
      · intro hc; simp at hc

/-- Doc: helper — `update` on an active agent that does not see the player
is the movement phase applied to the unseen transition phase. -/
theorem update_not_seen_eq (ops : FloatOps) (e : Enemy) (m : Maze)
    (px py : ℚ) (block : ℕ) (dt : ℚ)
    (ha : e.active = true)
    (hs : sees_player ops e m px py block = false) :
    update ops e m px py block dt =
      update_move ops (update_transition e false px py dt) false px py m
        block dt := by
  unfold update
  rw [if_neg (by simp [ha]), hs]

/-- Doc: helper — full field-level behaviour of one `update` call on an
active agent that does not see the player: the state machine's countdown
rules, phrased per current state, plus preservation of the active flag, the
cooldown maximum and the vision range. -/
theorem update_not_seen_fields (ops : FloatOps) (e : Enemy) (m : Maze)
    (px py : ℚ) (block : ℕ) (dt : ℚ)
    (ha : e.active = true)
    (hs : sees_player ops e m px py block = false) :
    (update ops e m px py block dt).active = true ∧
      (update ops e m px py block dt).cooldown_max = e.cooldown_max ∧
      (update ops e m px py block dt).range = e.range ∧
      (e.state = EnemyState.Chase → 0 < e.memory_time →
        (update ops e m px py block dt).state = EnemyState.Chase ∧
          (update ops e m px py block dt).memory_time = e.memory_time - dt ∧
          (update ops e m px py block dt).cooldown = e.cooldown) ∧
      (e.state = EnemyState.Chase → ¬0 < e.memory_time →
        (update ops e m px py block dt).state = EnemyState.Cooldown ∧
          (update ops e m px py block dt).cooldown = e.cooldown_max ∧
          (update ops e m px py block dt).has_last_seen = false ∧
          (update ops e m px py block dt).memory_time = e.memory_time) ∧
      (e.state = EnemyState.Cooldown →
        (update ops e m px py block dt).cooldown = e.cooldown - dt ∧
          (update ops e m px py block dt).memory_time = e.memory_time ∧
          (e.cooldown - dt ≤ 0 →
            (update ops e m px py block dt).state = EnemyState.Patrol) ∧
          (¬e.cooldown - dt ≤ 0 →
            (update ops e m px py block dt).state = EnemyState.Cooldown)) ∧
      (e.state = EnemyState.Patrol →
        (update ops e m px py block dt).state = EnemyState.Patrol ∧
          (update ops e m px py block dt).memory_time = e.memory_time ∧
          (update ops e m px py block dt).cooldown = e.cooldown) ∧
      (e.state ≠ EnemyState.Chase →
        (update ops e m px py block dt).has_last_seen = e.has_last_seen) := by
  obtain ⟨t1, t2, t3, t4, t5, t6, t7, t8⟩ :=
    update_transition_not_seen e px py dt
  obtain ⟨m1, m2, m3, m4, m5, m6, m7⟩ := update_move_preserves ops
    (update_transition e false px py dt) false px py m block dt
  rw [update_not_seen_eq ops e m px py block dt ha hs]
  refine ⟨by rw [m5, t1]; exact ha, by rw [m4, t2], by rw [m6, t3],
    ?_, ?_, ?_, ?_, ?_⟩
  · intro h1 h2
    have ht := t4 h1 h2
    refine ⟨?_, ?_, ?_⟩
    · rw [m1, ht]; exact h1
    · rw [m2, ht]
    · rw [m3, ht]
  · intro h1 h2
    have ht := t5 h1 h2
    refine ⟨?_, ?_, ?_, ?_⟩
    · rw [m1, ht]
    · rw [m3, ht]
    · rw [m7 (by rw [ht]; simp), ht]
    · rw [m2, ht]
  · intro h1
    refine ⟨?_, ?_, ?_, ?_⟩
    · by_cases hcd : e.cooldown - dt ≤ 0
      · rw [m3, t6 h1 hcd]
      · rw [m3, t7 h1 hcd]
    · by_cases hcd : e.cooldown - dt ≤ 0
      · rw [m2, t6 h1 hcd]
      · rw [m2, t7 h1 hcd]
    · intro hcd
      rw [m1, t6 h1 hcd]
    · intro hcd
      rw [m1, t7 h1 hcd]
      exact h1
  · intro h1
    have ht := t8 h1
    exact ⟨by rw [m1, ht]; exact h1, by rw [m2, ht], by rw [m3, ht]⟩
  · intro h1
    rcases hstate : e.state with _ | _ | _
    · have ht := t8 hstate
      rw [m7 (by rw [ht]; rw [hstate]; simp), ht]
    · exact absurd hstate h1
    · by_cases hcd : e.cooldown - dt ≤ 0
      · rw [m7 (by rw [t6 hstate hcd]; simp), t6 hstate hcd]
      · rw [m7 (by rw [t7 hstate hcd]; simp [hstate]), t7 hstate hcd]

/-- Doc: helper — one more frame of `updateRun`. -/
theorem updateRun_take_succ (ops : FloatOps) (m : Maze) (block : ℕ)
    (e : Enemy) (fs : List Frame) (k : ℕ) (hk : k < fs.length) :
    updateRun ops m block e (fs.take (k + 1)) =
      update ops (updateRun ops m block e (fs.take k)) m
        (fs.getD k frame0).px (fs.getD k frame0).py block
        (fs.getD k frame0).dt := by
  have hget : fs.getD k frame0 = fs[k] := by
    rw [List.getD_eq_getElem?_getD, List.getElem?_eq_getElem hk]
    rfl
  unfold updateRun
  rw [List.take_succ, List.getElem?_eq_getElem hk]
  simp only [Option.toList_some, List.foldl_append, List.foldl_cons,
    List.foldl_nil, hget]

/-- Doc: helper — one more frame of the accumulated delta time. -/
theorem dtSum_take_succ (fs : List Frame) (k : ℕ) (hk : k < fs.length) :
    dtSum (fs.take (k + 1)) = dtSum (fs.take k) + (fs.getD k frame0).dt := by
  have hget : fs.getD k frame0 = fs[k] := by
    rw [List.getD_eq_getElem?_getD, List.getElem?_eq_getElem hk]
    rfl
  rw [List.take_succ, List.getElem?_eq_getElem hk]
  simp only [Option.toList_some]
  unfold dtSum
  rw [List.map_append, List.sum_append, hget]
  simp

/-- Doc: helper — with nonnegative frame times, the accumulated delta time is
monotone in the number of frames. -/
theorem dtSum_take_mono (fs : List Frame) (hdt : ∀ f ∈ fs, 0 ≤ f.dt) :
    ∀ j k : ℕ, j ≤ k → dtSum (fs.take j) ≤ dtSum (fs.take k) := by
  intro j k hjk
  induction k with
  | zero =>
      have : j = 0 := Nat.le_zero.mp hjk
      rw [this]
  | succ k ih =>
      rcases Nat.eq_or_lt_of_le hjk with h | h
      · rw [h]
      · have hjk' : j ≤ k := Nat.lt_succ_iff.mp h
        by_cases hk : k < fs.length
        · have hmem : fs.getD k frame0 ∈ fs := by
            rw [List.getD_eq_getElem?_getD, List.getElem?_eq_getElem hk]
            exact List.getElem_mem hk
          have := hdt _ hmem
          rw [dtSum_take_succ fs k hk]
          linarith [ih hjk']
        · push_neg at hk
          have h1 : fs.take (k + 1) = fs :=
            List.take_all_of_le (le_trans hk (Nat.le_succ k))
          have h2 : fs.take k = fs := List.take_all_of_le hk
          have h3 : dtSum (fs.take (k + 1)) = dtSum (fs.take k) := by
            rw [h1, h2]
          rw [h3]
          exact ih hjk'

/-- Doc: helper — as long as every prefix's accumulated delta time stays
below the initial memory, an active chasing agent that never sees the player
stays in Chase with its memory countdown equal to memory-minus-accumulated
time, and its cooldown untouched. -/
theorem chase_run_fields (ops : FloatOps) (m : Maze) (block : ℕ) (e : Enemy)
    (fs : List Frame)
    (ha : e.active = true) (hst : e.state = EnemyState.Chase)
    (hdt : ∀ f ∈ fs, 0 ≤ f.dt)
    (hseen : ∀ k, k < fs.length →
      sees_player ops (updateRun ops m block e (fs.take k)) m
        (fs.getD k frame0).px (fs.getD k frame0).py block = false) :
    ∀ k, k ≤ fs.length →
      (∀ j, j < k → dtSum (fs.take j) < e.memory_time) →
      (updateRun ops m block e (fs.take k)).state = EnemyState.Chase ∧
        (updateRun ops m block e (fs.take k)).memory_time =
          e.memory_time - dtSum (fs.take k) ∧
        (updateRun ops m block e (fs.take k)).cooldown = e.cooldown ∧
        (updateRun ops m block e (fs.take k)).active = true ∧
        (updateRun ops m block e (fs.take k)).cooldown_max =
          e.cooldown_max ∧
        (updateRun ops m block e (fs.take k)).range = e.range := by
  intro k
  induction k with
  | zero =>
      intro _ _
      refine ⟨hst, ?_, rfl, ha, rfl, rfl⟩
      show e.memory_time = e.memory_time - dtSum []
      show e.memory_time = e.memory_time - 0
      ring
  | succ k ih =>
      intro hk1 hltM
      have hk : k < fs.length := Nat.lt_of_succ_le hk1
      obtain ⟨i1, i2, i3, i4, i5, i6⟩ := ih (le_of_lt hk)
        (fun j hj => hltM j (Nat.lt_succ_of_lt hj))
      have hmempos : 0 < (updateRun ops m block e (fs.take k)).memory_time := by
        rw [i2]
        have := hltM k (Nat.lt_succ_self k)
        linarith
      obtain ⟨u1, u2, u3, u4, _, _, _, _⟩ := update_not_seen_fields ops
        (updateRun ops m block e (fs.take k)) m (fs.getD k frame0).px
        (fs.getD k frame0).py block (fs.getD k frame0).dt i4 (hseen k hk)
      obtain ⟨c1, c2, c3⟩ := u4 i1 hmempos
      rw [updateRun_take_succ ops m block e fs k hk]
      refine ⟨c1, ?_, by rw [c3, i3], u1, by rw [u2, i5], by rw [u3, i6]⟩
      rw [c2, i2, dtSum_take_succ fs k hk]
      ring

/-- Doc: helper — the frame on which the memory is found exhausted moves the
agent from Chase to Cooldown, primes the cooldown countdown from its maximum
and clears the last-known flag. -/
theorem run_exit_fields (ops : FloatOps) (m : Maze) (block : ℕ) (e : Enemy)
    (fs : List Frame)
    (ha : e.active = true) (hst : e.state = EnemyState.Chase)
    (hdt : ∀ f ∈ fs, 0 ≤ f.dt)
    (hseen : ∀ k, k < fs.length →
      sees_player ops (updateRun ops m block e (fs.take k)) m
        (fs.getD k frame0).px (fs.getD k frame0).py block = false)
    (K : ℕ) (hK : K < fs.length)
    (hminM : ∀ j, j < K → dtSum (fs.take j) < e.memory_time)
    (hKge : ¬dtSum (fs.take K) < e.memory_time) :
    (updateRun ops m block e (fs.take (K + 1))).state =
        EnemyState.Cooldown ∧
      (updateRun ops m block e (fs.take (K + 1))).cooldown =
        e.cooldown_max ∧
      (updateRun ops m block e (fs.take (K + 1))).has_last_seen = false ∧
      (updateRun ops m block e (fs.take (K + 1))).active = true ∧
      (updateRun ops m block e (fs.take (K + 1))).cooldown_max =
        e.cooldown_max ∧
      (updateRun ops m block e (fs.take (K + 1))).range = e.range := by
  obtain ⟨i1, i2, i3, i4, i5, i6⟩ :=
    chase_run_fields ops m block e fs ha hst hdt hseen K (le_of_lt hK) hminM
  have hmemneg : ¬0 < (updateRun ops m block e (fs.take K)).memory_time := by
    rw [i2]
    push_neg at hKge ⊢
    linarith
  obtain ⟨u1, u2, u3, _, u5, _, _, _⟩ := update_not_seen_fields ops
    (updateRun ops m block e (fs.take K)) m (fs.getD K frame0).px
    (fs.getD K frame0).py block (fs.getD K frame0).dt i4 (hseen K hK)
  obtain ⟨c1, c2, c3, _⟩ := u5 i1 hmemneg
  rw [updateRun_take_succ ops m block e fs K hK]
  exact ⟨c1, by rw [c2, i5], c3, u1, by rw [u2, i5], by rw [u3, i6]⟩

/-- Doc: helper — from the Cooldown entry on, the agent's state is Cooldown
with countdown maximum-minus-accumulated-time exactly while that quantity is
positive, and Patrol afterwards; the last-known flag stays cleared. -/
theorem cooldown_run_fields (ops : FloatOps) (m : Maze) (block : ℕ)
    (e : Enemy) (fs : List Frame)
    (ha : e.active = true) (hst : e.state = EnemyState.Chase)
    (hcmax : 0 < e.cooldown_max)
    (hdt : ∀ f ∈ fs, 0 ≤ f.dt)
    (hseen : ∀ k, k < fs.length →
      sees_player ops (updateRun ops m block e (fs.take k)) m
        (fs.getD k frame0).px (fs.getD k frame0).py block = false)
    (K : ℕ) (hK : K < fs.length)
    (hminM : ∀ j, j < K → dtSum (fs.take j) < e.memory_time)
    (hKge : ¬dtSum (fs.take K) < e.memory_time) :
    ∀ k, K + 1 ≤ k → k ≤ fs.length →
      (updateRun ops m block e (fs.take k)).active = true ∧
        (updateRun ops m block e (fs.take k)).cooldown_max =
          e.cooldown_max ∧
        (updateRun ops m block e (fs.take k)).has_last_seen = false ∧
        (dtSum (fs.take k) - dtSum (fs.take (K + 1)) < e.cooldown_max →
          (updateRun ops m block e (fs.take k)).state =
              EnemyState.Cooldown ∧
            (updateRun ops m block e (fs.take k)).cooldown =
              e.cooldown_max -
                (dtSum (fs.take k) - dtSum (fs.take (K + 1)))) ∧
        (e.cooldown_max ≤ dtSum (fs.take k) - dtSum (fs.take (K + 1)) →
          (updateRun ops m block e (fs.take k)).state =
            EnemyState.Patrol) := by
  intro k
  induction k with
  | zero => intro h0; omega
  | succ k ih =>
      intro hk1 hk2
      rcases Nat.eq_or_lt_of_le hk1 with hbase | hstep
      · -- base case: k + 1 = K + 1
        have hKk : k = K := by omega
        subst hKk
        obtain ⟨x1, x2, x3, x4, x5, x6⟩ := run_exit_fields ops m block e fs
          ha hst hdt hseen k hK hminM hKge
        refine ⟨x4, x5, x3, ?_, ?_⟩
        · intro _
          refine ⟨x1, ?_⟩
          rw [x2]
          ring
        · intro hc
          have : dtSum (fs.take (k + 1)) - dtSum (fs.take (k + 1)) = 0 := by
            ring
          rw [this] at hc
          linarith
      · -- inductive step: K + 1 ≤ k
        have hkK : K + 1 ≤ k := Nat.lt_succ_iff.mp hstep
        have hk : k < fs.length := Nat.lt_of_succ_le hk2
        obtain ⟨i1, i2, i3, i4, i5⟩ := ih hkK (le_of_lt hk)
        obtain ⟨u1, u2, u3, _, _, u6, u7, u8⟩ := update_not_seen_fields ops
          (updateRun ops m block e (fs.take k)) m (fs.getD k frame0).px
          (fs.getD k frame0).py block (fs.getD k frame0).dt i1 (hseen k hk)
        have hdtk : 0 ≤ (fs.getD k frame0).dt := by
          have hmem : fs.getD k frame0 ∈ fs := by
            rw [List.getD_eq_getElem?_getD, List.getElem?_eq_getElem hk]
            exact List.getElem_mem hk
          exact hdt _ hmem
        have hsucc := dtSum_take_succ fs k hk
        rw [updateRun_take_succ ops m block e fs k hk]
        by_cases hD : dtSum (fs.take k) - dtSum (fs.take (K + 1)) <
            e.cooldown_max
        · -- still in Cooldown before this frame
          obtain ⟨s1, s2⟩ := i4 hD
          obtain ⟨v1, v2, v3, v4⟩ := u6 s1
          have hcd : (updateRun ops m block e (fs.take k)).cooldown -
              (fs.getD k frame0).dt =
              e.cooldown_max -
                (dtSum (fs.take (k + 1)) - dtSum (fs.take (K + 1))) := by
            rw [s2, hsucc]
            ring
          refine ⟨u1, by rw [u2, i2], by rw [u8 (by rw [s1]; simp), i3],
            ?_, ?_⟩
          · intro hD'
            constructor
            · apply v4
              rw [hcd]
              push_neg
              linarith
            · rw [v1, hcd]
          · intro hD'
            apply v3
            rw [hcd]
            linarith
        · -- already in Patrol before this frame
          push_neg at hD
          have s1 := i5 hD
          obtain ⟨v1, v2, v3⟩ := u7 s1
          have hmono : dtSum (fs.take k) ≤ dtSum (fs.take (k + 1)) := by
            rw [hsucc]
            linarith
          refine ⟨u1, by rw [u2, i2], by rw [u8 (by rw [s1]; simp), i3],
            ?_, ?_⟩
          · intro hD'
            linarith
          · intro _
            exact v1

/-- C7: starting from Chase with a positive memory countdown, an active
agent that never sees the target (a) stays in Chase exactly while the
accumulated delta time before each frame is below the initial memory; (b) on
the frame that finds the memory exhausted it transitions to Cooldown with
the cooldown countdown reset to its maximum and the last-known flag
cleared; and (c) from that frame on it is in Cooldown exactly while the
delta time accumulated since the transition frame is below the cooldown
maximum, and in Patrol exactly afterwards. -/
theorem c7_state_machine_timing (ops : FloatOps) (m : Maze) (block : ℕ)
    (e : Enemy) (fs : List Frame)
    (ha : e.active = true) (hst : e.state = EnemyState.Chase)
    (hM : 0 < e.memory_time) (hcmax : 0 < e.cooldown_max)
    (hdt : ∀ f ∈ fs, 0 ≤ f.dt)
    (hseen : ∀ k, k < fs.length →
      sees_player ops (updateRun ops m block e (fs.take k)) m
        (fs.getD k frame0).px (fs.getD k frame0).py block = false) :
    (∀ k, k < fs.length →
      ((updateRun ops m block e (fs.take (k + 1))).state =
          EnemyState.Chase ↔ dtSum (fs.take k) < e.memory_time)) ∧
      (∀ K, K < fs.length → ¬dtSum (fs.take K) < e.memory_time →
        (∀ j, j < K → dtSum (fs.take j) < e.memory_time) →
        ((updateRun ops m block e (fs.take (K + 1))).state =
            EnemyState.Cooldown ∧
          (updateRun ops m block e (fs.take (K + 1))).cooldown =
            e.cooldown_max ∧
          (updateRun ops m block e (fs.take (K + 1))).has_last_seen =
            false) ∧
        (∀ k, K + 1 ≤ k → k ≤ fs.length →
          ((updateRun ops m block e (fs.take k)).state =
              EnemyState.Cooldown ↔
            dtSum (fs.take k) - dtSum (fs.take (K + 1)) <
              e.cooldown_max) ∧
          ((updateRun ops m block e (fs.take k)).state =
              EnemyState.Patrol ↔
            e.cooldown_max ≤
              dtSum (fs.take k) - dtSum (fs.take (K + 1))))) := by
  constructor
  · intro k hk
    constructor
    · intro hchase
      by_contra hge
      -- find the first prefix whose accumulated time reaches the memory
      have hex : ∃ j, ¬dtSum (fs.take j) < e.memory_time := ⟨k, hge⟩
      classical
      set K := Nat.find hex with hKdef
      have hKspec : ¬dtSum (fs.take K) < e.memory_time := Nat.find_spec hex
      have hKmin : ∀ j, j < K → dtSum (fs.take j) < e.memory_time :=
        fun j hj => of_not_not (Nat.find_min hex hj)
      have hKk : K ≤ k := Nat.find_min' hex hge
      have hKlen : K < fs.length := lt_of_le_of_lt hKk hk
      have hcool := cooldown_run_fields ops m block e fs ha hst hcmax hdt
        hseen K hKlen hKmin hKspec (k + 1) (by omega) hk
      obtain ⟨_, _, _, c4, c5⟩ := hcool
      by_cases hD : dtSum (fs.take (k + 1)) - dtSum (fs.take (K + 1)) <
          e.cooldown_max
      · obtain ⟨s1, _⟩ := c4 hD
        rw [hchase] at s1
        simp at s1
      · push_neg at hD
        have s1 := c5 hD
        rw [hchase] at s1
        simp at s1
    · intro hlt
      have hall : ∀ j, j < k + 1 → dtSum (fs.take j) < e.memory_time := by
        intro j hj
        have : dtSum (fs.take j) ≤ dtSum (fs.take k) :=
          dtSum_take_mono fs hdt j k (by omega)
        linarith
      exact (chase_run_fields ops m block e fs ha hst hdt hseen (k + 1) hk
        hall).1
  · intro K hK hKge hKmin
    obtain ⟨x1, x2, x3, _, _, _⟩ := run_exit_fields ops m block e fs ha hst
      hdt hseen K hK hKmin hKge
    refine ⟨⟨x1, x2, x3⟩, ?_⟩
    intro k hk1 hk2
    obtain ⟨_, _, _, c4, c5⟩ := cooldown_run_fields ops m block e fs ha hst
      hcmax hdt hseen K hK hKmin hKge k hk1 hk2
    constructor
    · constructor
      · intro hcool
        by_contra hD
        push_neg at hD
        have := c5 hD
        rw [hcool] at this
        simp at this
      · intro hD
        exact (c4 hD).1
    · constructor
      · intro hpat
        by_contra hD
        push_neg at hD
        have := (c4 hD).1
        rw [hpat] at this
        simp at this
      · intro hD
        exact c5 hD

/-- Doc: helper — the transition phase never changes the vision range. -/
theorem update_transition_range (e : Enemy) (s : Bool) (px py dt : ℚ) :
    (update_transition e s px py dt).range = e.range := by
  unfold update_transition
  by_cases hsee : s = true
  · rw [if_pos hsee]
  · rw [if_neg hsee]
    rcases hstate : e.state with _ | _ | _ <;> simp only [hstate] <;>
      split_ifs <;> rfl

/-- Doc: helper — `update` never changes the vision range. -/
theorem update_preserves_range (ops : FloatOps) (e : Enemy) (m : Maze)
    (px py : ℚ) (block : ℕ) (dt : ℚ) :
    (update ops e m px py block dt).range = e.range := by
  unfold update
  by_cases hact : e.active = false
  · rw [if_pos hact]
  · rw [if_neg hact]
    obtain ⟨_, _, _, _, _, m6, _⟩ := update_move_preserves ops
      (update_transition e (sees_player ops e m px py block) px py dt)
      (sees_player ops e m px py block) px py m block dt
    rw [m6, update_transition_range]

/-- Doc: helper — a whole run of `update` never changes the vision range. -/
theorem updateRun_preserves_range (ops : FloatOps) (m : Maze) (block : ℕ)
    (fs : List Frame) :
    ∀ e : Enemy, (updateRun ops m block e fs).range = e.range := by
  induction fs with
  | nil => intro e; rfl
  | cons f fs ih =>
      intro e
      show (updateRun ops m block
        (update ops e m f.px f.py block f.dt) fs).range = e.range
      rw [ih, update_preserves_range]

/-- Doc: helper — with the zero transcendental operations, an agent with
negative vision range never sees the player: the machine distance is 0. -/
theorem sees_player_zero_neg_range (e : Enemy) (m : Maze) (px py : ℚ)
    (block : ℕ) (h : e.range < 0) :
    sees_player zeroOps e m px py block = false := by
  have h' : e.range <
      zeroOps.sqrtQ ((px - e.x) * (px - e.x) + (py - e.y) * (py - e.y)) := by
    simpa [zeroOps] using h
  unfold sees_player
  rw [if_pos h']

/-- C7 (witness): the timing theorem applied to the concrete never-seeing
chasing agent (memory 1 s, cooldown max 0.5 s) over frames of
0.6/0.6/0.3/0.3/0.3 s: after frame 3 (accumulated 1.2 s ≥ memory before it)
the state is Cooldown with the countdown reset and the flag cleared, and
after frame 5 (0.6 s ≥ 0.5 s since the transition) the state is Patrol. -/
theorem c7_state_machine_timing_witness :
    c7enemy.active = true ∧ c7enemy.state = EnemyState.Chase ∧
      (0 : ℚ) < c7enemy.memory_time ∧ (0 : ℚ) < c7enemy.cooldown_max ∧
      (updateRun zeroOps wallMaze 10 c7enemy (c7frames.take 3)).state =
        EnemyState.Cooldown ∧
      (updateRun zeroOps wallMaze 10 c7enemy (c7frames.take 3)).cooldown =
        c7enemy.cooldown_max ∧
      (updateRun zeroOps wallMaze 10 c7enemy
        (c7frames.take 3)).has_last_seen = false ∧
      (updateRun zeroOps wallMaze 10 c7enemy (c7frames.take 5)).state =
        EnemyState.Patrol := by
  have hseen : ∀ k, k < c7frames.length →
      sees_player zeroOps
        (updateRun zeroOps wallMaze 10 c7enemy (c7frames.take k)) wallMaze
        (c7frames.getD k frame0).px (c7frames.getD k frame0).py 10 =
        false := by
    intro k _
    apply sees_player_zero_neg_range
    rw [updateRun_preserves_range]
    show (-1 : ℚ) < 0
    norm_num
  have hdt : ∀ f ∈ c7frames, 0 ≤ f.dt := by
    intro f hf
    simp only [c7frames, List.mem_cons, List.not_mem_nil, or_false] at hf
    rcases hf with h | h | h | h | h <;> rw [h] <;> norm_num
  obtain ⟨hA, hB⟩ := c7_state_machine_timing zeroOps wallMaze 10 c7enemy
    c7frames rfl rfl (by show (0 : ℚ) < 1; norm_num)
    (by show (0 : ℚ) < 1/2; norm_num) hdt hseen
  have h2len : 2 < c7frames.length := by simp [c7frames]
  have hge : ¬dtSum (c7frames.take 2) < c7enemy.memory_time := by
    show ¬dtSum (c7frames.take 2) < 1
    simp only [c7frames, List.take, dtSum, List.map_cons, List.map_nil,
      List.sum_cons, List.sum_nil]
    norm_num
  have hmin : ∀ j, j < 2 → dtSum (c7frames.take j) < c7enemy.memory_time := by
    intro j hj
    rcases j with _ | _ | j
    · show dtSum (c7frames.take 0) < 1
      simp only [List.take, dtSum, List.map_nil, List.sum_nil]
      norm_num
    · show dtSum (c7frames.take 1) < 1
      simp only [c7frames, List.take, dtSum, List.map_cons, List.map_nil,
        List.sum_cons, List.sum_nil]
      norm_num
    · omega
  obtain ⟨⟨x1, x2, x3⟩, hC⟩ := hB 2 h2len hge hmin
  have h5 := hC 5 (by omega) (by simp [c7frames])
  have hD : c7enemy.cooldown_max ≤
      dtSum (c7frames.take 5) - dtSum (c7frames.take 3) := by
    show (1/2 : ℚ) ≤ dtSum (c7frames.take 5) - dtSum (c7frames.take 3)
    simp only [c7frames, List.take, dtSum, List.map_cons, List.map_nil,
      List.sum_cons, List.sum_nil]
    norm_num
  exact ⟨rfl, rfl, by show (0 : ℚ) < 1; norm_num,
    by show (0 : ℚ) < 1/2; norm_num, x1, x2, x3, h5.2.mpr hD⟩

/-- Doc: helper — walks compose. -/
theorem reach_append {pass : ℕ × ℕ → Bool} {s u v : ℕ × ℕ} {n m : ℕ}
    (h1 : ReachK pass s n u) (h2 : ReachK pass u m v) :
    ReachK pass s (n + m) v := by
  induction h2 with
  | refl => simpa using h1
  | step hr hadj hp ih =>
      rw [Nat.add_succ]
      exact ReachK.step ih hadj hp

/-- Doc: helper — a walk of length zero stays at the source. -/
theorem reachK_zero {pass : ℕ × ℕ → Bool} {s v : ℕ × ℕ}
    (h : ReachK pass s 0 v) : v = s := by
  cases h
  rfl

/-- Doc: helper — a reachable vertex is reached by a walk of minimal
length. -/
theorem reach_gdist {pass : ℕ × ℕ → Bool} {s v : ℕ × ℕ}
    (h : reachQ pass s v) : ReachK pass s (gdist pass s v) v :=
  Nat.sInf_mem h

/-- Doc: helper — the graph distance is at most any walk length. -/
theorem gdist_le {pass : ℕ × ℕ → Bool} {s v : ℕ × ℕ} {n : ℕ}
    (h : ReachK pass s n v) : gdist pass s v ≤ n :=
  Nat.sInf_le h

/-- Doc: helper — the distance from the source to itself is zero. -/
theorem gdist_self (pass : ℕ × ℕ → Bool) (s : ℕ × ℕ) :
    gdist pass s s = 0 :=
  Nat.le_zero.mp (gdist_le ReachK.refl)

/-- Doc: helper — distance zero means the vertex is the source. -/
theorem gdist_eq_zero_imp {pass : ℕ × ℕ → Bool} {s v : ℕ × ℕ}
    (h : reachQ pass s v) (h0 : gdist pass s v = 0) : v = s :=
  reachK_zero (h0 ▸ reach_gdist h)

/-- Doc: helper — every vertex of a walk other than the source is
passable. -/
theorem reach_pass_or_eq {pass : ℕ × ℕ → Bool} {s v : ℕ × ℕ} {n : ℕ}
    (h : ReachK pass s n v) : v = s ∨ pass v = true := by
  cases h with
  | refl => exact Or.inl rfl
  | step _ _ hp => exact Or.inr hp

/-- Doc: helper — behind every vertex at distance `n + 1` lies an adjacent
vertex at distance exactly `n`. -/
theorem gdist_backstep {pass : ℕ × ℕ → Bool} {s v : ℕ × ℕ}
    (h : reachQ pass s v) (n : ℕ) (hd : gdist pass s v = n + 1) :
    ∃ u, adjQ u v ∧ (u = s ∨ pass u = true) ∧ reachQ pass s u ∧
      gdist pass s u = n := by
  have hr := reach_gdist h
  rw [hd] at hr
  cases hr with
  | step hu hadj hp =>
      rename_i u
      refine ⟨u, hadj, reach_pass_or_eq hu, ⟨n, hu⟩, ?_⟩
      have hle : gdist pass s u ≤ n := gdist_le hu
      rcases Nat.lt_or_ge (gdist pass s u) n with hlt | hge
      · exfalso
        have hshort : ReachK pass s (gdist pass s u + 1) v :=
          ReachK.step (reach_gdist ⟨n, hu⟩) hadj hp
        have := gdist_le hshort
        omega
      · omega

/-- Doc: helper — the triangle inequality along a connecting walk. -/
theorem gdist_triangle {pass : ℕ × ℕ → Bool} {s u v : ℕ × ℕ} {m : ℕ}
    (h1 : reachQ pass s u) (h2 : ReachK pass u m v) :
    gdist pass s v ≤ gdist pass s u + m :=
  gdist_le (reach_append (reach_gdist h1) h2)

/-- Doc: helper — every 4-neighbour is produced by one of the four search
directions, with nonnegative integer coordinates. -/
theorem adj_dirs_cover (c q : ℕ × ℕ) (h : adjQ c q) :
    ∃ d ∈ dirsList, 0 ≤ (c.1 : ℤ) + d.1 ∧ 0 ≤ (c.2 : ℤ) + d.2 ∧
      (((c.1 : ℤ) + d.1).toNat, ((c.2 : ℤ) + d.2).toNat) = q := by
  obtain ⟨c1, c2⟩ := c
  obtain ⟨q1, q2⟩ := q
  rcases h with ⟨h1, h2⟩ | ⟨h1, h2⟩ | ⟨h1, h2⟩ | ⟨h1, h2⟩
  · refine ⟨(1, 0), by simp [dirsList], by omega, by omega, ?_⟩
    simp only [Prod.mk.injEq]
    constructor <;> omega
  · refine ⟨(-1, 0), by simp [dirsList], by omega, by omega, ?_⟩
    simp only [Prod.mk.injEq]
    constructor <;> omega
  · refine ⟨(0, 1), by simp [dirsList], by omega, by omega, ?_⟩
    simp only [Prod.mk.injEq]
    constructor <;> omega
  · refine ⟨(0, -1), by simp [dirsList], by omega, by omega, ?_⟩
    simp only [Prod.mk.injEq]
    constructor <;> omega

/-- Doc: helper — a passable cell lies inside the grid bounds. -/
theorem passableCell_bounds (m : Maze) (w h : ℕ) (p : ℕ × ℕ)
    (hp : passableCell m w h p = true) : p.1 < w ∧ p.2 < h := by
  unfold passableCell at hp
  split_ifs at hp with hb
  · push_neg at hb
    omega

/-- Doc: helper — one neighbour probe either leaves the state unchanged or
pushes exactly one new cell: unvisited, passable, in bounds and adjacent to
the expanded cell. -/
theorem bfs_push_eq_or (pass : ℕ × ℕ → Bool) (w h : ℕ) (c : ℕ × ℕ)
    (st : BfsState) (d : ℤ × ℤ) (hd : d ∈ dirsList) :
    bfs_push pass w h c st d = st ∨
      ∃ n : ℕ × ℕ,
        bfs_push pass w h c st d =
          { queue := st.queue ++ [n],
            prev := fun p => if p = n then some c else st.prev p } ∧
        st.prev n = none ∧ pass n = true ∧ n.1 < w ∧ n.2 < h ∧ adjQ c n := by
  obtain ⟨d1, d2⟩ := d
  unfold bfs_push
  split_ifs with h1 h2 h3 h4
  · exact Or.inl rfl
  · exact Or.inl rfl
  · exact Or.inl rfl
  · exact Or.inl rfl
  · right
    push_neg at h1 h2
    refine ⟨(((c.1 : ℤ) + d1).toNat, ((c.2 : ℤ) + d2).toNat), rfl, ?_, ?_,
      h2.1, h2.2, ?_⟩
    · rcases hopt : st.prev (((c.1 : ℤ) + d1).toNat, ((c.2 : ℤ) + d2).toNat)
        with _ | v
      · rfl
      · rw [hopt] at h3
        simp at h3
    · rcases hp : pass (((c.1 : ℤ) + d1).toNat, ((c.2 : ℤ) + d2).toNat)
      · exact absurd hp h4
      · rfl
    · simp only [dirsList, List.mem_cons, List.not_mem_nil, or_false,
        Prod.mk.injEq] at hd
      rcases hd with ⟨rfl, rfl⟩ | ⟨rfl, rfl⟩ | ⟨rfl, rfl⟩ | ⟨rfl, rfl⟩
      · exact Or.inl ⟨by omega, by omega⟩
      · exact Or.inr (Or.inl ⟨by omega, by omega⟩)
      · exact Or.inr (Or.inr (Or.inl ⟨by omega, by omega⟩))
      · exact Or.inr (Or.inr (Or.inr ⟨by omega, by omega⟩))

/-- Doc: helper — a neighbour probe preserves recorded parents. -/
theorem bfs_push_prev_mono (pass : ℕ × ℕ → Bool) (w h : ℕ) (c : ℕ × ℕ)
    (st : BfsState) (d : ℤ × ℤ) (hd : d ∈ dirsList) (p : ℕ × ℕ)
    (v : ℕ × ℕ) (hpv : st.prev p = some v) :
    (bfs_push pass w h c st d).prev p = some v := by
  rcases bfs_push_eq_or pass w h c st d hd with heq | ⟨n, heq, hnone, _, _, _, _⟩
  · rw [heq]
    exact hpv
  · rw [heq]
    show (if p = n then some c else st.prev p) = some v
    by_cases hpn : p = n
    · subst hpn
      rw [hpv] at hnone
      exact Option.noConfusion hnone
    · rw [if_neg hpn]
      exact hpv

/-- Doc: helper — a neighbour probe leaves its own in-bounds passable
candidate visited. -/
theorem bfs_push_candidate_marked (pass : ℕ × ℕ → Bool) (w h : ℕ)
    (c : ℕ × ℕ) (st : BfsState) (d : ℤ × ℤ) (q : ℕ × ℕ)
    (hn1 : 0 ≤ (c.1 : ℤ) + d.1) (hn2 : 0 ≤ (c.2 : ℤ) + d.2)
    (heq : (((c.1 : ℤ) + d.1).toNat, ((c.2 : ℤ) + d.2).toNat) = q)
    (hb1 : q.1 < w) (hb2 : q.2 < h) (hq : pass q = true) :
    ((bfs_push pass w h c st d).prev q).isSome = true := by
  subst heq
  unfold bfs_push
  split_ifs with h1 h2 h3 h4
  · omega
  · exfalso
    rcases h2 with h2 | h2 <;> omega
  · exact h3
  · rw [hq] at h4
    exact absurd h4 (by simp)
  · show ((fun p => if p = (((c.1 : ℤ) + d.1).toNat,
      ((c.2 : ℤ) + d.2).toNat) then some c else st.prev p)
        (((c.1 : ℤ) + d.1).toNat, ((c.2 : ℤ) + d.2).toNat)).isSome = true
    simp

/-- Doc: helper — visiting a fresh in-bounds cell decreases the unvisited
count by exactly one. -/
theorem unmarked_update_card (w h : ℕ) (st : BfsState) (c n : ℕ × ℕ)
    (q' : List (ℕ × ℕ)) (hb1 : n.1 < w) (hb2 : n.2 < h)
    (hnone : st.prev n = none) :
    unmarkedCount w h
        { queue := q', prev := fun p => if p = n then some c else st.prev p }
      + 1 = unmarkedCount w h st := by
  unfold unmarkedCount
  have hmem : n ∈ (Finset.range w ×ˢ Finset.range h).filter
      (fun p => st.prev p = none) :=
    Finset.mem_filter.mpr ⟨Finset.mem_product.mpr
      ⟨Finset.mem_range.mpr hb1, Finset.mem_range.mpr hb2⟩, hnone⟩
  have hset : (Finset.range w ×ˢ Finset.range h).filter
      (fun p => (if p = n then some c else st.prev p) = none) =
      ((Finset.range w ×ˢ Finset.range h).filter
        (fun p => st.prev p = none)).erase n := by
    ext p
    simp only [Finset.mem_filter, Finset.mem_erase]
    constructor
    · rintro ⟨hpmem, hpnone⟩
      by_cases hpn : p = n
      · rw [if_pos hpn] at hpnone
        exact Option.noConfusion hpnone
      · rw [if_neg hpn] at hpnone
        exact ⟨hpn, hpmem, hpnone⟩
    · rintro ⟨hpn, hpmem, hpnone⟩
      rw [if_neg hpn]
      exact ⟨hpmem, hpnone⟩
  have hcard : (((Finset.range w ×ˢ Finset.range h).filter
      (fun p => st.prev p = none)).erase n).card + 1 =
      ((Finset.range w ×ˢ Finset.range h).filter
        (fun p => st.prev p = none)).card := by
    rw [Finset.card_erase_of_mem hmem]
    have hpos : 0 < ((Finset.range w ×ˢ Finset.range h).filter
        (fun p => st.prev p = none)).card :=
      Finset.card_pos.mpr ⟨n, hmem⟩
    omega
  show ((Finset.range w ×ˢ Finset.range h).filter
      (fun p => (if p = n then some c else st.prev p) = none)).card + 1 =
    ((Finset.range w ×ˢ Finset.range h).filter
      (fun p => st.prev p = none)).card
  rw [hset]
  exact hcard

/-- Doc: helper — folding `bfs_push` over a list of direction offsets
appends some list of newly visited cells to the queue, preserves parents,
marks only adjacent passable unvisited cells (with parent the expanded
cell), and does not increase the measure 2*unvisited + queue length. -/
theorem bfs_pushes_spec (pass : ℕ × ℕ → Bool) (w h : ℕ) (c : ℕ × ℕ)
    (ds : List (ℤ × ℤ)) (hds : ∀ d ∈ ds, d ∈ dirsList) (st : BfsState) :
    ∃ news : List (ℕ × ℕ),
      (List.foldl (bfs_push pass w h c) st ds).queue = st.queue ++ news ∧
      (∀ p v, st.prev p = some v →
        (List.foldl (bfs_push pass w h c) st ds).prev p = some v) ∧
      (∀ p, ((List.foldl (bfs_push pass w h c) st ds).prev p).isSome = true →
        (st.prev p).isSome = true ∨
          ((List.foldl (bfs_push pass w h c) st ds).prev p = some c ∧
            adjQ c p ∧ pass p = true ∧ st.prev p = none ∧ p ∈ news)) ∧
      (∀ p ∈ news, adjQ c p ∧ pass p = true ∧ st.prev p = none ∧
        ((List.foldl (bfs_push pass w h c) st ds).prev p).isSome = true) ∧
      2 * unmarkedCount w h (List.foldl (bfs_push pass w h c) st ds) +
          (List.foldl (bfs_push pass w h c) st ds).queue.length ≤
        2 * unmarkedCount w h st + st.queue.length := by
  induction ds generalizing st with
  | nil =>
      exact ⟨[], by simp, fun p v hv => hv, fun p hp => Or.inl hp,
        by simp, le_refl _⟩
  | cons d ds ih =>
      have hds' : ∀ d' ∈ ds, d' ∈ dirsList :=
        fun d' hd' => hds d' (List.mem_cons_of_mem d hd')
      rcases bfs_push_eq_or pass w h c st d (hds d (List.mem_cons_self d ds))
        with heq | ⟨n, heq, hnone, hpassn, hb1, hb2, hadjn⟩
      · rw [List.foldl_cons, heq]
        exact ih hds' st
      · rw [List.foldl_cons, heq]
        obtain ⟨news, hq, hmono, hnew, hnewsf, hmu⟩ := ih hds'
          { queue := st.queue ++ [n],
            prev := fun p => if p = n then some c else st.prev p }
        refine ⟨n :: news, ?_, ?_, ?_, ?_, ?_⟩
        · rw [hq]
          simp
        · intro p v hpv
          apply hmono
          show (if p = n then some c else st.prev p) = some v
          by_cases hpn : p = n
          · subst hpn
            rw [hpv] at hnone
            exact Option.noConfusion hnone
          · rw [if_neg hpn]
            exact hpv
        · intro p hpmark
          rcases hnew p hpmark with hold | ⟨hc, hadj', hpass', hnone', hmem'⟩
          · by_cases hpn : p = n
            · subst hpn
              right
              refine ⟨?_, hadjn, hpassn, hnone, List.mem_cons_self p news⟩
              apply hmono
              show (if p = p then some c else st.prev p) = some c
              rw [if_pos rfl]
            · left
              have hold' : (if p = n then some c else st.prev p).isSome
                  = true := hold
              rwa [if_neg hpn] at hold'
          · have hpn : p ≠ n := by
              intro hrfl
              subst hrfl
              have hx : (if p = p then some c else st.prev p) = none := hnone'
              rw [if_pos rfl] at hx
              exact Option.noConfusion hx
            right
            refine ⟨hc, hadj', hpass', ?_, List.mem_cons_of_mem n hmem'⟩
            have hx : (if p = n then some c else st.prev p) = none := hnone'
            rwa [if_neg hpn] at hx
        · intro p hp
          rcases List.mem_cons.mp hp with rfl | hpnews
          · refine ⟨hadjn, hpassn, hnone, ?_⟩
            have h1 : (List.foldl (bfs_push pass w h c)
                { queue := st.queue ++ [p],
                  prev := fun q => if q = p then some c else st.prev q }
                  ds).prev p = some c := by
              apply hmono
              show (if p = p then some c else st.prev p) = some c
              rw [if_pos rfl]
            rw [h1]
            rfl
          · obtain ⟨hadj', hpass', hnone', hmark'⟩ := hnewsf p hpnews
            have hpn : p ≠ n := by
              intro hrfl
              subst hrfl
              have hx : (if p = p then some c else st.prev p) = none := hnone'
              rw [if_pos rfl] at hx
              exact Option.noConfusion hx
            refine ⟨hadj', hpass', ?_, hmark'⟩
            have hx : (if p = n then some c else st.prev p) = none := hnone'
            rwa [if_neg hpn] at hx
        · have hcard := unmarked_update_card w h st c n (st.queue ++ [n])
            hb1 hb2 hnone
          have hlen : ({ queue := st.queue ++ [n],
                         prev := fun p => if p = n then some c
                           else st.prev p } :
                BfsState).queue.length = st.queue.length + 1 := by
            simp
          omega

/-- Doc: helper — if a direction whose candidate is the in-bounds passable
cell q occurs in the processed direction list, q ends up visited. -/
theorem bfs_pushes_marks (pass : ℕ × ℕ → Bool) (w h : ℕ) (c : ℕ × ℕ)
    (q : ℕ × ℕ) (d : ℤ × ℤ) (hn1 : 0 ≤ (c.1 : ℤ) + d.1)
    (hn2 : 0 ≤ (c.2 : ℤ) + d.2)
    (heq : (((c.1 : ℤ) + d.1).toNat, ((c.2 : ℤ) + d.2).toNat) = q)
    (hb1 : q.1 < w) (hb2 : q.2 < h) (hq : pass q = true) :
    ∀ ds, (∀ d' ∈ ds, d' ∈ dirsList) → d ∈ ds → ∀ st : BfsState,
      ((List.foldl (bfs_push pass w h c) st ds).prev q).isSome = true := by
  intro ds
  induction ds with
  | nil =>
      intro _ hmem
      exact absurd hmem (List.not_mem_nil d)
  | cons d' ds ih =>
      intro hds hmem st
      rw [List.foldl_cons]
      by_cases hdd : d ∈ ds
      · exact ih (fun e he => hds e (List.mem_cons_of_mem d' he)) hdd _
      · have hde : d' = d := by
          rcases List.mem_cons.mp hmem with h | h
          · exact h.symm
          · exact absurd h hdd
        subst hde
        have h1 : ((bfs_push pass w h c st d').prev q).isSome = true :=
          bfs_push_candidate_marked pass w h c st d' q hn1 hn2 heq hb1 hb2 hq
        obtain ⟨v, hv⟩ := Option.isSome_iff_exists.mp h1
        obtain ⟨_, _, hmono, _, _, _⟩ := bfs_pushes_spec pass w h c ds
          (fun e he => hds e (List.mem_cons_of_mem d' he))
          (bfs_push pass w h c st d')
        rw [hmono q v hv]
        rfl

/-- Doc: helper — expanding a cell visits every passable in-bounds
4-neighbour of that cell. -/
theorem bfs_expand_covers (pass : ℕ × ℕ → Bool) (w h : ℕ) (c : ℕ × ℕ)
    (st : BfsState) (hpb : ∀ p, pass p = true → p.1 < w ∧ p.2 < h)
    (q : ℕ × ℕ) (hadj : adjQ c q) (hq : pass q = true) :
    ((bfs_expand pass w h c st).prev q).isSome = true := by
  obtain ⟨d, hd, hn1, hn2, heq⟩ := adj_dirs_cover c q hadj
  exact bfs_pushes_marks pass w h c q d hn1 hn2 heq (hpb q hq).1
    (hpb q hq).2 hq dirsList (fun e he => he) hd st

/-- Doc: helper — a visited set containing the source and closed under
passable adjacency contains every walk endpoint. -/
theorem closure_of_expanded (pass : ℕ × ℕ → Bool) (s : ℕ × ℕ)
    (F : ℕ × ℕ → Option (ℕ × ℕ)) (hs : (F s).isSome = true)
    (hcl : ∀ p, (F p).isSome = true → ∀ q, adjQ p q → pass q = true →
      (F q).isSome = true) :
    ∀ n p, ReachK pass s n p → (F p).isSome = true := by
  intro n p hw
  induction hw with
  | refl => exact hs
  | step hu hadj hp ih => exact hcl _ ih _ hadj hp

/-- Doc: helper — at most `w * h` cells are ever unvisited. -/
theorem unmarkedCount_le (w h : ℕ) (st : BfsState) :
    unmarkedCount w h st ≤ w * h := by
  unfold unmarkedCount
  calc ((Finset.range w ×ˢ Finset.range h).filter
        (fun p => st.prev p = none)).card
      ≤ (Finset.range w ×ˢ Finset.range h).card :=
        Finset.card_filter_le _ _
    _ = w * h := by
        rw [Finset.card_product, Finset.card_range, Finset.card_range]

/-- Doc: helper — with an empty queue the invariant yields full coverage of
the reachable passable cells. -/
theorem bfsinv_empty_closure (pass : ℕ × ℕ → Bool) (s : ℕ × ℕ)
    (st : BfsState) (hinv : BfsInv pass s st) (hq : st.queue = []) :
    ∀ p, reachQ pass s p → pass p = true → (st.prev p).isSome = true := by
  rcases hinv.layers with ⟨_, hcl⟩ | ⟨k, qa, qb, hsplit, hqane, _, _, _⟩
  · exact hcl
  · exfalso
    rw [hq] at hsplit
    rcases List.append_eq_nil.mp hsplit.symm with ⟨h1, _⟩
    exact hqane h1

/-- Doc: helper — the starting state of the BFS satisfies the loop
invariant. -/
theorem bfs_init_inv (pass : ℕ × ℕ → Bool) (s : ℕ × ℕ) :
    BfsInv pass s { queue := [s],
                    prev := fun p => if p = s then some s else none } := by
  have hmark : ∀ p : ℕ × ℕ,
      ((if p = s then some s else none : Option (ℕ × ℕ))).isSome = true →
        p = s := by
    intro p hpm
    by_contra hne
    rw [if_neg hne] at hpm
    simp at hpm
  refine ⟨?_, ?_, ?_, ?_, ?_, ?_⟩
  · show (if s = s then some s else none) = some s
    rw [if_pos rfl]
  · intro p hps q hpq
    have hx : (if p = s then some s else none) = some q := hpq
    rw [if_neg hps] at hx
    exact Option.noConfusion hx
  · intro p hp
    have hps : p = s := by simpa using hp
    show ((if p = s then some s else none : Option (ℕ × ℕ))).isSome = true
    rw [if_pos hps]
    rfl
  · right
    refine ⟨0, [s], [], by simp, by simp, ?_, by simp, ?_⟩
    · intro p hp
      have hps : p = s := by simpa using hp
      rw [hps]
      exact gdist_self pass s
    · intro p hrp hp hle
      have h0 : gdist pass s p = 0 := Nat.le_zero.mp hle
      have hps : p = s := gdist_eq_zero_imp hrp h0
      show ((if p = s then some s else none : Option (ℕ × ℕ))).isSome = true
      rw [if_pos hps]
      rfl
  · intro p hpm hpq
    exfalso
    apply hpq
    show p ∈ [s]
    simp [hmark p hpm]
  · intro p hpm
    rw [hmark p hpm]
    exact ⟨0, ReachK.refl⟩

/-- Doc: helper — one dequeue-and-expand step of the BFS preserves the
invariant and strictly decreases the measure 2*unvisited + queue length. -/
theorem bfs_step_inv (pass : ℕ × ℕ → Bool) (w h : ℕ) (s : ℕ × ℕ)
    (c : ℕ × ℕ) (rest : List (ℕ × ℕ)) (prevF : ℕ × ℕ → Option (ℕ × ℕ))
    (hinv : BfsInv pass s { queue := c :: rest, prev := prevF })
    (hpb : ∀ p, pass p = true → p.1 < w ∧ p.2 < h) :
    BfsInv pass s (bfs_expand pass w h c { queue := rest, prev := prevF }) ∧
      2 * unmarkedCount w h
          (bfs_expand pass w h c { queue := rest, prev := prevF }) +
        (bfs_expand pass w h c
          { queue := rest, prev := prevF }).queue.length <
      2 * unmarkedCount w h { queue := c :: rest, prev := prevF } +
        ({ queue := c :: rest, prev := prevF } : BfsState).queue.length := by
  obtain ⟨hstart, hparent, hqmark, hlayers, hexpand, hreach⟩ := hinv
  unfold bfs_expand
  obtain ⟨news, hq', hmono, hnew, hnewsf, hmu⟩ :=
    bfs_pushes_spec pass w h c dirsList (fun d hd => hd)
      { queue := rest, prev := prevF }
  set E := List.foldl (bfs_push pass w h c)
    { queue := rest, prev := prevF } dirsList with hEdef
  have hq'' : E.queue = rest ++ news := hq'
  have hpres : ∀ p, (prevF p).isSome = true →
      (E.prev p).isSome = true := by
    intro p hp
    obtain ⟨v, hv⟩ := Option.isSome_iff_exists.mp hp
    rw [hmono p v hv]
    rfl
  rcases hlayers with ⟨hnil, _⟩ | ⟨k, qa, qb, hsplit, hqane, hfront, hback,
    hcomp⟩
  · exact absurd hnil (by simp)
  rcases qa with _ | ⟨qa0, qa'⟩
  · exact absurd rfl hqane
  have hsplit2 : c :: rest = qa0 :: (qa' ++ qb) := by
    have h0 : ({ queue := c :: rest, prev := prevF } : BfsState).queue
        = (qa0 :: qa') ++ qb := hsplit
    simpa using h0
  injection hsplit2 with hc0 hrestEq
  subst hc0
  have hgc : gdist pass s c = k := hfront c (List.mem_cons_self c qa')
  have hcm : (prevF c).isSome = true := hqmark c (by simp)
  have hrc : reachQ pass s c := hreach c hcm
  have hnewdist : ∀ p, adjQ c p → pass p = true → prevF p = none →
      reachQ pass s p ∧ gdist pass s p = k + 1 := by
    intro p hadj hp hnone
    obtain ⟨nwalk, hw⟩ := hreach c hcm
    have hrp : reachQ pass s p := ⟨nwalk + 1, ReachK.step hw hadj hp⟩
    refine ⟨hrp, ?_⟩
    have hub := gdist_triangle hrc (ReachK.step ReachK.refl hadj hp)
    rw [hgc] at hub
    have hlb : ¬gdist pass s p ≤ k := by
      intro hle
      have hm : (prevF p).isSome = true := hcomp p hrp hp hle
      rw [hnone] at hm
      simp at hm
    omega
  have hnewsd : ∀ p ∈ news,
      reachQ pass s p ∧ gdist pass s p = k + 1 ∧ pass p = true := by
    intro p hp
    obtain ⟨hadj, hpass, hnone, _⟩ := hnewsf p hp
    obtain ⟨hr, hd⟩ := hnewdist p hadj hpass hnone
    exact ⟨hr, hd, hpass⟩
  have hcover : ∀ q, adjQ c q → pass q = true →
      (E.prev q).isSome = true := by
    intro q hadj hqp
    obtain ⟨d, hd, hn1, hn2, heq⟩ := adj_dirs_cover c q hadj
    exact bfs_pushes_marks pass w h c q d hn1 hn2 heq (hpb q hqp).1
      (hpb q hqp).2 hqp dirsList (fun e he => he) hd _
  have hstartE : E.prev s = some s := hmono s s hstart
  have hparentE : ∀ p, p ≠ s → ∀ q, E.prev p = some q → adjQ q p ∧
      pass p = true ∧ (E.prev q).isSome = true ∧
      gdist pass s p = gdist pass s q + 1 := by
    intro p hps q hpq
    have hsome : (E.prev p).isSome = true := by
      rw [hpq]
      rfl
    rcases hnew p hsome with hold | ⟨hsc, hadj, hp, hnone, _⟩
    · obtain ⟨q0, hq0⟩ := Option.isSome_iff_exists.mp hold
      have hEq0 : E.prev p = some q0 := hmono p q0 hq0
      rw [hpq] at hEq0
      obtain rfl : q = q0 := Option.some.inj hEq0
      obtain ⟨hadj0, hp0, hqsome0, hgd0⟩ := hparent p hps q hq0
      exact ⟨hadj0, hp0, hpres q hqsome0, hgd0⟩
    · rw [hpq] at hsc
      obtain rfl : q = c := Option.some.inj hsc
      obtain ⟨hrp, hgd⟩ := hnewdist p hadj hp hnone
      refine ⟨hadj, hp, hpres q hcm, ?_⟩
      rw [hgd, hgc]
  have hqmarkE : ∀ p ∈ E.queue, (E.prev p).isSome = true := by
    intro p hp
    rw [hq''] at hp
    rcases List.mem_append.mp hp with h1 | h2
    · exact hpres p (hqmark p (by simp [h1]))
    · exact (hnewsf p h2).2.2.2
  have hexpE : ∀ p, (E.prev p).isSome = true → p ∉ E.queue →
      ∀ q2, adjQ p q2 → pass q2 = true → (E.prev q2).isSome = true := by
    intro p hpm hpq q2 hadj2 hq2
    rcases hnew p hpm with hold | ⟨_, _, _, _, hmem⟩
    · by_cases hpc : p = c
      · subst hpc
        exact hcover q2 hadj2 hq2
      · by_cases hpin : p ∈ c :: rest
        · have hprest : p ∈ rest := by
            rcases List.mem_cons.mp hpin with h1 | h1
            · exact absurd h1 hpc
            · exact h1
          exact absurd (by
            rw [hq'']
            exact List.mem_append_left _ hprest) hpq
        · exact hpres q2 (hexpand p hold hpin q2 hadj2 hq2)
    · exact absurd (by
        rw [hq'']
        exact List.mem_append_right _ hmem) hpq
  have hreachE : ∀ p, (E.prev p).isSome = true → reachQ pass s p := by
    intro p hpm
    rcases hnew p hpm with hold | ⟨_, hadj, hp, hnone, _⟩
    · exact hreach p hold
    · exact (hnewdist p hadj hp hnone).1
  have hlayE : (E.queue = [] ∧ ∀ p, reachQ pass s p → pass p = true →
        (E.prev p).isSome = true) ∨
      (∃ k2 qa2 qb2, E.queue = qa2 ++ qb2 ∧ qa2 ≠ [] ∧
        (∀ p ∈ qa2, gdist pass s p = k2) ∧
        (∀ p ∈ qb2, gdist pass s p = k2 + 1) ∧
        (∀ p, reachQ pass s p → pass p = true → gdist pass s p ≤ k2 →
          (E.prev p).isSome = true)) := by
    by_cases hqa' : qa' = []
    · subst hqa'
      have hrq : rest = qb := by simpa using hrestEq
      subst hrq
      have hcomp1 : ∀ p, reachQ pass s p → pass p = true →
          gdist pass s p ≤ k + 1 → (E.prev p).isSome = true := by
        intro p hrp hp hle
        rcases Nat.lt_or_ge (gdist pass s p) (k + 1) with hlt | hge
        · exact hpres p (hcomp p hrp hp (by omega))
        · have hdp : gdist pass s p = k + 1 := by omega
          obtain ⟨u, huadj, hupass, hur, hud⟩ := gdist_backstep hrp k hdp
          have hum : (prevF u).isSome = true := by
            rcases hupass with hus | hup
            · have hs2 : prevF s = some s := hstart
              rw [hus, hs2]
              rfl
            · exact hcomp u hur hup (by omega)
          by_cases huq : u ∈ c :: rest
          · rcases List.mem_cons.mp huq with rfl | hur2
            · exact hcover p huadj hp
            · have := hback u hur2
              omega
          · exact hpres p (hexpand u hum huq p huadj hp)
      by_cases hempty : rest ++ news = []
      · left
        constructor
        · rw [hq'']
          exact hempty
        · intro p hrp hp
          obtain ⟨nw, hw⟩ := hrp
          have hsE : (E.prev s).isSome = true := by
            rw [hstartE]
            rfl
          have hqE : E.queue = [] := by
            rw [hq'']
            exact hempty
          exact closure_of_expanded pass s E.prev hsE
            (fun p2 hp2 q2 hadj2 hq2 =>
              hexpE p2 hp2 (by
                rw [hqE]
                exact List.not_mem_nil p2) q2 hadj2 hq2)
            nw p hw
      · right
        refine ⟨k + 1, rest ++ news, [], by rw [hq'']; simp, hempty, ?_,
          by simp, hcomp1⟩
        intro p hp
        rcases List.mem_append.mp hp with h1 | h2
        · exact hback p h1
        · exact (hnewsd p h2).2.1
    · right
      refine ⟨k, qa', qb ++ news, ?_, hqa', ?_, ?_, ?_⟩
      · rw [hq'', hrestEq, List.append_assoc]
      · intro p hp
        exact hfront p (List.mem_cons_of_mem c hp)
      · intro p hp
        rcases List.mem_append.mp hp with h1 | h2
        · exact hback p h1
        · exact (hnewsd p h2).2.1
      · intro p hrp hp hle
        exact hpres p (hcomp p hrp hp hle)
  have hlen1 : ({ queue := c :: rest, prev := prevF } :
      BfsState).queue.length = rest.length + 1 := rfl
  have hmu2 : 2 * unmarkedCount w h E + E.queue.length ≤
      2 * unmarkedCount w h { queue := c :: rest, prev := prevF } +
        rest.length := by
    have hueq : unmarkedCount w h
        ({ queue := rest, prev := prevF } : BfsState) =
        unmarkedCount w h { queue := c :: rest, prev := prevF } := rfl
    have hlen0 : ({ queue := rest, prev := prevF } :
        BfsState).queue.length = rest.length := rfl
    omega
  exact ⟨⟨hstartE, hparentE, hqmarkE, hlayE, hexpE, hreachE⟩, by omega⟩

/-- Doc: helper — running the BFS loop from an invariant state with enough
fuel yields a parent map that still satisfies the invariant and covers the
goal whenever the goal is reachable and passable. -/
theorem bfs_loop_spec (pass : ℕ × ℕ → Bool) (w h : ℕ) (goal s : ℕ × ℕ)
    (hpb : ∀ p, pass p = true → p.1 < w ∧ p.2 < h) :
    ∀ fuel (st : BfsState), BfsInv pass s st →
      2 * unmarkedCount w h st + st.queue.length ≤ fuel →
      ∃ st' : BfsState, bfs_loop pass w h goal fuel st = st'.prev ∧
        BfsInv pass s st' ∧
        (reachQ pass s goal → pass goal = true →
          (st'.prev goal).isSome = true) := by
  intro fuel
  induction fuel with
  | zero =>
      intro st hinv hfu
      refine ⟨st, rfl, hinv, ?_⟩
      have hq0 : st.queue = [] := by
        have hlen : st.queue.length = 0 := by omega
        exact List.length_eq_zero.mp hlen
      exact fun hr hp => bfsinv_empty_closure pass s st hinv hq0 goal hr hp
  | succ n ih =>
      intro st hinv hfu
      obtain ⟨qs, prevF⟩ := st
      rcases qs with _ | ⟨c, rest⟩
      · refine ⟨⟨[], prevF⟩, rfl, hinv, ?_⟩
        exact fun hr hp =>
          bfsinv_empty_closure pass s ⟨[], prevF⟩ hinv rfl goal hr hp
      · by_cases hc : c = goal
        · subst hc
          refine ⟨⟨c :: rest, prevF⟩, ?_, hinv, ?_⟩
          · show (if c = c then prevF
              else bfs_loop pass w h c n
                (bfs_expand pass w h c { queue := rest, prev := prevF }))
              = prevF
            rw [if_pos rfl]
          · intro _ _
            exact hinv.queue_marked c (by simp)
        · obtain ⟨hinv', hmu'⟩ := bfs_step_inv pass w h s c rest prevF hinv hpb
          have hlen2 : ({ queue := c :: rest, prev := prevF } :
              BfsState).queue.length = rest.length + 1 := rfl
          have hfu' : 2 * unmarkedCount w h
              (bfs_expand pass w h c { queue := rest, prev := prevF }) +
              (bfs_expand pass w h c
                { queue := rest, prev := prevF }).queue.length ≤ n := by
            omega
          obtain ⟨st', heq, hinv'', hgoal⟩ := ih
            (bfs_expand pass w h c { queue := rest, prev := prevF })
            hinv' hfu'
          refine ⟨st', ?_, hinv'', hgoal⟩
          show (if c = goal then prevF
            else bfs_loop pass w h goal n
              (bfs_expand pass w h c { queue := rest, prev := prevF }))
            = st'.prev
          rw [if_neg hc]
          exact heq

/-- Doc: helper — walking the parent chain back from a visited cell other
than the start returns a cell adjacent to the start, passable, at distance
one, and lying on a shortest path to the walked-from cell. -/
theorem back_track_spec (pass : ℕ × ℕ → Bool) (s : ℕ × ℕ)
    (prevF : ℕ × ℕ → Option (ℕ × ℕ))
    (hparent : ∀ p, p ≠ s → ∀ q, prevF p = some q → adjQ q p ∧
      pass p = true ∧ (prevF q).isSome = true ∧
      gdist pass s p = gdist pass s q + 1) :
    ∀ fuel cur last, (prevF cur).isSome = true → cur ≠ s →
      gdist pass s cur < fuel →
      ∃ v, back_track prevF s fuel cur last = v ∧ adjQ s v ∧
        pass v = true ∧ gdist pass s v = 1 ∧
        ReachK pass v (gdist pass s cur - 1) cur := by
  intro fuel
  induction fuel with
  | zero =>
      intro cur last _ _ hfu
      omega
  | succ n ih =>
      intro cur last hm hcs hfu
      obtain ⟨p, hp⟩ := Option.isSome_iff_exists.mp hm
      obtain ⟨hadj, hpass, hpm, hgd⟩ := hparent cur hcs p hp
      have hred : back_track prevF s (n + 1) cur last =
          back_track prevF s n p cur := by
        show (if cur = s then last else
          match prevF cur with
          | some q => back_track prevF s n q cur
          | none => cur) = back_track prevF s n p cur
        rw [if_neg hcs, hp]
      rw [hred]
      by_cases hps : p = s
      · have hret : back_track prevF s n p cur = cur := by
          cases n with
          | zero => rfl
          | succ m =>
              show (if p = s then cur else
                match prevF p with
                | some q => back_track prevF s m q p
                | none => p) = cur
              rw [if_pos hps]
        rw [hret]
        have hg1 : gdist pass s cur = 1 := by
          rw [hgd, hps, gdist_self]
        refine ⟨cur, rfl, hps ▸ hadj, hpass, hg1, ?_⟩
        rw [hg1]
        exact ReachK.refl
      · obtain ⟨q2, hq2⟩ := Option.isSome_iff_exists.mp hpm
        obtain ⟨_, _, _, hgd2⟩ := hparent p hps q2 hq2
        have hpn : gdist pass s p < n := by omega
        obtain ⟨v, hbt, hvadj, hvpass, hvgd, hw⟩ := ih p cur hpm hps hpn
        refine ⟨v, hbt, hvadj, hvpass, hvgd, ?_⟩
        have hstep := ReachK.step hw hadj hpass
        have hidx : gdist pass s p - 1 + 1 = gdist pass s cur - 1 := by
          omega
        rw [← hidx]
        exact hstep

/-- Doc: helper — below the distance of any reachable vertex, every
distance value is attained by some reachable vertex. -/
theorem dist_surj (pass : ℕ × ℕ → Bool) (s : ℕ × ℕ) :
    ∀ d v, reachQ pass s v → gdist pass s v = d → ∀ i, i ≤ d →
      ∃ u, reachQ pass s u ∧ (u = s ∨ pass u = true) ∧
        gdist pass s u = i := by
  intro d
  induction d with
  | zero =>
      intro v hr hd i hi
      have hi0 : i = 0 := Nat.le_zero.mp hi
      subst hi0
      exact ⟨s, ⟨0, ReachK.refl⟩, Or.inl rfl, gdist_self pass s⟩
  | succ n ih =>
      intro v hr hd i hi
      rcases Nat.eq_or_lt_of_le hi with heq | hlt
      · exact ⟨v, hr, reach_pass_or_eq (reach_gdist hr), by omega⟩
      · obtain ⟨u, hadj, hupass, hur, hud⟩ := gdist_backstep hr n hd
        exact ih u hur hud i (by omega)

/-- Doc: helper — in a `w × h` grid of passable cells the graph distance
from a passable source never reaches `w * h + 1` (pigeonhole on the
distinct distances along a shortest walk). -/
theorem gdist_bound (pass : ℕ × ℕ → Bool) (s v : ℕ × ℕ) (w h : ℕ)
    (hpb : ∀ p, pass p = true → p.1 < w ∧ p.2 < h)
    (hs : pass s = true) (hr : reachQ pass s v) :
    gdist pass s v < w * h + 1 := by
  by_contra hge
  push_neg at hge
  have hex : ∀ i : ℕ, i ≤ gdist pass s v → ∃ u, reachQ pass s u ∧
      (u = s ∨ pass u = true) ∧ gdist pass s u = i :=
    fun i hi => dist_surj pass s (gdist pass s v) v hr rfl i hi
  have hcard : (Finset.range (w * h + 1)).card ≤
      (Finset.range w ×ˢ Finset.range h).card := by
    apply Finset.card_le_card_of_injOn
      (fun i => if hi : i ≤ gdist pass s v then (hex i hi).choose else s)
    · intro i hi
      simp only [Finset.mem_range] at hi
      have hi' : i ≤ gdist pass s v := by omega
      rw [dif_pos hi']
      obtain ⟨hru, hpu, hgu⟩ := (hex i hi').choose_spec
      have hpassu : pass (hex i hi').choose = true := by
        rcases hpu with heqs | hp
        · rw [heqs]
          exact hs
        · exact hp
      have hb := hpb _ hpassu
      exact Finset.mem_product.mpr ⟨Finset.mem_range.mpr hb.1,
        Finset.mem_range.mpr hb.2⟩
    · intro i hi j hj hij
      simp only [Finset.coe_range, Set.mem_Iio] at hi hj
      have hi' : i ≤ gdist pass s v := by omega
      have hj' : j ≤ gdist pass s v := by omega
      have hij2 : (if hi0 : i ≤ gdist pass s v then (hex i hi0).choose
          else s) = (if hj0 : j ≤ gdist pass s v then (hex j hj0).choose
          else s) := hij
      rw [dif_pos hi', dif_pos hj'] at hij2
      have g1 := ((hex i hi').choose_spec).2.2
      have g2 := ((hex j hj').choose_spec).2.2
      rw [hij2] at g1
      rw [g2] at g1
      exact g1.symm
  rw [Finset.card_range, Finset.card_product, Finset.card_range,
    Finset.card_range] at hcard
  omega

/-- Doc: helper — full functional characterisation of `next_step_cell`:
it returns `none` exactly when a guard fails or the goal cell is
unreachable, and otherwise the returned cell is the start itself (when
start = goal) or the first step of a shortest path. -/
theorem next_step_cell_spec (m : Maze) (sc gc : ℤ × ℤ)
    (w h : ℕ) (hw : w = (m.getD 0 []).length) (hh : h = m.length)
    (pass : ℕ × ℕ → Bool) (hpass : pass = passableCell m w h)
    (sn gn : ℕ × ℕ) (hsn : sn = (sc.1.toNat, sc.2.toNat))
    (hgn : gn = (gc.1.toNat, gc.2.toNat)) :
    (next_step_cell m sc gc = none ↔
      ¬(cellInGrid w h sc ∧ cellInGrid w h gc ∧ pass sn = true ∧
        pass gn = true ∧ reachQ pass sn gn)) ∧
    (∀ v, next_step_cell m sc gc = some v →
      (sn = gn ∧ v = sn) ∨
        (sn ≠ gn ∧ adjQ sn v ∧ pass v = true ∧ gdist pass sn v = 1 ∧
          ReachK pass v (gdist pass sn gn - 1) gn)) := by
  have hpb : ∀ p, pass p = true → p.1 < w ∧ p.2 < h := by
    intro p hp
    rw [hpass] at hp
    exact passableCell_bounds m w h p hp
  have hfui : 2 * unmarkedCount w h
      { queue := [sn], prev := fun p => if p = sn then some sn else none } +
      ({ queue := [sn], prev := fun p => if p = sn then some sn else none } :
        BfsState).queue.length ≤ 2 * w * h + 1 := by
    have hu := unmarkedCount_le w h
      { queue := [sn], prev := fun p => if p = sn then some sn else none }
    have hl : ({ queue := [sn], prev := fun p => if p = sn then some sn else none } : BfsState).queue.length = 1 := rfl
    have h2 : 2 * unmarkedCount w h { queue := [sn], prev := fun p => if p = sn then some sn else none } ≤ 2 * (w * h) := Nat.mul_le_mul_left 2 hu
    rw [← Nat.mul_assoc] at h2
    rw [hl]
    exact Nat.add_le_add_right h2 1
  obtain ⟨st', heq, hinv', hgoal⟩ := bfs_loop_spec pass w h gn sn hpb
    (2 * w * h + 1)
    { queue := [sn], prev := fun p => if p = sn then some sn else none }
    (bfs_init_inv pass sn) hfui
  have hmaster : (next_step_cell m sc gc = none ∧
      ¬(cellInGrid w h sc ∧ cellInGrid w h gc ∧ pass sn = true ∧
        pass gn = true ∧ reachQ pass sn gn)) ∨
      (∃ v, next_step_cell m sc gc = some v ∧
        (cellInGrid w h sc ∧ cellInGrid w h gc ∧ pass sn = true ∧
          pass gn = true ∧ reachQ pass sn gn) ∧
        ((sn = gn ∧ v = sn) ∨
          (sn ≠ gn ∧ adjQ sn v ∧ pass v = true ∧ gdist pass sn v = 1 ∧
            ReachK pass v (gdist pass sn gn - 1) gn))) := by
    unfold next_step_cell
    rw [← hw, ← hh, ← hsn, ← hgn, ← hpass, heq]
    split_ifs with h1 h2 h3 h4
    · left
      refine ⟨rfl, ?_⟩
      intro hOK
      obtain ⟨hA, hB, _⟩ := hOK
      unfold cellInGrid at hA hB
      obtain ⟨a1, a2, a3, a4⟩ := hA
      obtain ⟨b1, b2, b3, b4⟩ := hB
      rcases h1 with h1 | h1 | h1 | h1 <;> omega
    · left
      refine ⟨rfl, ?_⟩
      intro hOK
      obtain ⟨hA, hB, _⟩ := hOK
      unfold cellInGrid at hA hB
      obtain ⟨a1, a2, a3, a4⟩ := hA
      obtain ⟨b1, b2, b3, b4⟩ := hB
      rcases h2 with h2 | h2 | h2 | h2 <;> omega
    · left
      refine ⟨rfl, ?_⟩
      rintro ⟨_, _, hps, hpg, _⟩
      rcases h3 with h3 | h3
      · rw [hps] at h3
        exact Bool.noConfusion h3
      · rw [hpg] at h3
        exact Bool.noConfusion h3
    · left
      refine ⟨rfl, ?_⟩
      rintro ⟨_, _, _, hpg, hre⟩
      rw [hgoal hre hpg] at h4
      exact Bool.noConfusion h4
    · right
      rw [not_or] at h3
      obtain ⟨h3s, h3g⟩ := h3
      have hpss : pass sn = true := by
        cases hx : pass sn
        · exact absurd hx h3s
        · rfl
      have hpsg : pass gn = true := by
        cases hx : pass gn
        · exact absurd hx h3g
        · rfl
      have hsome : (st'.prev gn).isSome = true := by
        cases hx : (st'.prev gn).isSome
        · exact absurd hx h4
        · rfl
      have hre : reachQ pass sn gn := hinv'.marked_reach gn hsome
      push_neg at h1 h2
      have hAg : cellInGrid w h sc := by
        unfold cellInGrid
        refine ⟨?_, ?_, ?_, ?_⟩ <;> omega
      have hBg : cellInGrid w h gc := by
        unfold cellInGrid
        refine ⟨?_, ?_, ?_, ?_⟩ <;> omega
      by_cases hsg : sn = gn
      · have hbt : back_track st'.prev sn (w * h + 1) gn gn = gn := by
          rw [← hsg]
          show (if sn = sn then sn else
            match st'.prev sn with
            | some q => back_track st'.prev sn (w * h) q sn
            | none => sn) = sn
          rw [if_pos rfl]
        exact ⟨gn, by rw [hbt], ⟨hAg, hBg, hpss, hpsg, hre⟩,
          Or.inl ⟨hsg, hsg.symm⟩⟩
      · have hD := gdist_bound pass sn gn w h hpb hpss hre
        obtain ⟨v, hbt, hvadj, hvpass, hvgd, hwk⟩ := back_track_spec pass sn
          st'.prev hinv'.parentF (w * h + 1) gn gn hsome
          (fun hx => hsg hx.symm) hD
        exact ⟨v, by rw [hbt], ⟨hAg, hBg, hpss, hpsg, hre⟩,
          Or.inr ⟨hsg, hvadj, hvpass, hvgd, hwk⟩⟩
  constructor
  · rcases hmaster with ⟨hn, hnot⟩ | ⟨v, hv, hOK, _⟩
    · exact ⟨fun _ => hnot, fun _ => hn⟩
    · constructor
      · intro habs
        rw [habs] at hv
        exact Option.noConfusion hv
      · intro hnot
        exact absurd hOK hnot
  · intro v2 hv2
    rcases hmaster with ⟨hn, _⟩ | ⟨v, hv, _, hprops⟩
    · rw [hn] at hv2
      exact Option.noConfusion hv2
    · rw [hv] at hv2
      obtain rfl : v = v2 := Option.some.inj hv2
      exact hprops

/-- C10: when the agent's active flag is false, `update` returns the agent
entirely unchanged — every field, for every maze, player position, block
size and delta time. -/
theorem c10_inactive_update_noop (ops : FloatOps) (e : Enemy) (m : Maze)
    (px py : ℚ) (block : ℕ) (dt : ℚ) (h : e.active = false) :
    update ops e m px py block dt = e := by
  unfold update
  rw [if_pos h]

/-- C10 (witness): a freshly constructed enemy is inactive, and `update`
leaves it unchanged. -/
theorem c10_inactive_update_noop_witness :
    (Enemy.new 1 2 3).active = false ∧
      update zeroOps (Enemy.new 1 2 3) mazeC1 4 5 5 (1/10) =
        Enemy.new 1 2 3 :=
  ⟨rfl, c10_inactive_update_noop zeroOps (Enemy.new 1 2 3) mazeC1 4 5 5
    (1/10) rfl⟩

/-- C6: `next_step_towards` returns `none` exactly when the source or
target cell is out of bounds, non-traversable, or the target cell is
unreachable from the source cell through traversable cells; otherwise it
returns the vector from the exact continuous source position to the centre
of a cell: the source cell itself when source and target share a cell,
else a traversable cell adjacent to the source cell at graph distance one
that begins a shortest 4-connected path to the target cell. -/
theorem c6_next_step_towards (m : Maze) (block : ℕ) (sx sy tx ty : ℚ)
    (w h : ℕ) (hw : w = (m.getD 0 []).length) (hh : h = m.length)
    (pass : ℕ × ℕ → Bool) (hpass : pass = passableCell m w h)
    (sn gn : ℕ × ℕ)
    (hsn : sn = ((cellOf block sx sy).1.toNat, (cellOf block sx sy).2.toNat))
    (hgn : gn = ((cellOf block tx ty).1.toNat,
      (cellOf block tx ty).2.toNat)) :
    (next_step_towards m block sx sy tx ty = none ↔
      ¬(cellInGrid w h (cellOf block sx sy) ∧
        cellInGrid w h (cellOf block tx ty) ∧ pass sn = true ∧
        pass gn = true ∧ reachQ pass sn gn)) ∧
    (∀ q : ℚ × ℚ, next_step_towards m block sx sy tx ty = some q →
      ∃ last : ℕ × ℕ,
        q = (((last.1 : ℚ) + 1/2) * (block : ℚ) - sx,
          ((last.2 : ℚ) + 1/2) * (block : ℚ) - sy) ∧
        ((sn = gn ∧ last = sn) ∨
          (sn ≠ gn ∧ adjQ sn last ∧ pass last = true ∧
            gdist pass sn last = 1 ∧
            ReachK pass last (gdist pass sn gn - 1) gn))) := by
  obtain ⟨hiff, hsome⟩ := next_step_cell_spec m (cellOf block sx sy)
    (cellOf block tx ty) w h hw hh pass hpass sn gn hsn hgn
  rcases hres : next_step_cell m (cellOf block sx sy) (cellOf block tx ty)
    with _ | last
  · constructor
    · constructor
      · intro _
        exact hiff.mp hres
      · intro _
        unfold next_step_towards
        rw [hres]
    · intro q hq
      unfold next_step_towards at hq
      rw [hres] at hq
      have hq2 : (none : Option (ℚ × ℚ)) = some q := hq
      exact Option.noConfusion hq2
  · have hOK : cellInGrid w h (cellOf block sx sy) ∧
        cellInGrid w h (cellOf block tx ty) ∧ pass sn = true ∧
        pass gn = true ∧ reachQ pass sn gn := by
      by_contra hno
      rw [hiff.mpr hno] at hres
      exact Option.noConfusion hres
    constructor
    · constructor
      · intro habs
        unfold next_step_towards at habs
        rw [hres] at habs
        have habs2 : some (((last.1 : ℚ) + 1/2) * (block : ℚ) - sx,
            ((last.2 : ℚ) + 1/2) * (block : ℚ) - sy) =
            (none : Option (ℚ × ℚ)) := habs
        exact Option.noConfusion habs2
      · intro hno
        exact absurd hOK hno
    · intro q hq
      unfold next_step_towards at hq
      rw [hres] at hq
      have hq2 : some (((last.1 : ℚ) + 1/2) * (block : ℚ) - sx,
          ((last.2 : ℚ) + 1/2) * (block : ℚ) - sy) = some q := hq
      exact ⟨last, (Option.some.inj hq2).symm, hsome last hres⟩

/-- C6 (counterexample): with source and target world positions inside the
same cell of the all-open 1×1 grid — in bounds, traversable, trivially
reachable — the code returns the vector to that same cell's centre, a cell
that is not adjacent to the source cell, so the `otherwise` clause of the
claim (a vector to the centre of a cell adjacent to the source) fails at
this input. -/
theorem c6_counterexample :
    next_step_towards cellMaze 10 1 1 2 3 = some (4, 4) ∧
      ∀ c : ℕ × ℕ, adjQ (0, 0) c →
        ((((c.1 : ℚ) + 1/2) * 10 - 1, ((c.2 : ℚ) + 1/2) * 10 - 1) :
          ℚ × ℚ) ≠ ((4 : ℚ), (4 : ℚ)) := by
  constructor
  · have hc1 : cellOf 10 1 1 = (0, 0) := by
      unfold cellOf
      norm_num
    have hc2 : cellOf 10 2 3 = (0, 0) := by
      unfold cellOf
      norm_num
    have hcell : next_step_cell cellMaze (0, 0) (0, 0) = some (0, 0) := by
      decide
    unfold next_step_towards
    rw [hc1, hc2, hcell]
    norm_num
  · intro c hadj
    obtain ⟨c1, c2⟩ := c
    intro heq
    simp only [Prod.mk.injEq] at heq
    obtain ⟨hx, hy⟩ := heq
    rcases hadj with ⟨h1, h2⟩ | ⟨h1, h2⟩ | ⟨h1, h2⟩ | ⟨h1, h2⟩
    · have hc1 : c1 = 1 := by simpa using h1
      subst hc1
      norm_num at hx
    · have h0 : (0 : ℕ) = c1 + 1 := by simpa using h1
      omega
    · have hc2 : c2 = 1 := by simpa using h1
      subst hc2
      norm_num at hy
    · have h0 : (0 : ℕ) = c2 + 1 := by simpa using h1
      omega

/-- C6 (witness): on the open 1×3 corridor with block size 10, from world
position (15, 5) (cell (1,0)) towards (25, 5) (cell (2,0)) the code steps
to the adjacent cell (2,0) — traversable, at graph distance one — and
returns the vector (10, 0) to its centre. -/
theorem c6_next_step_towards_witness :
    next_step_towards rowMaze 10 15 5 25 5 = some (10, 0) ∧
      adjQ (1, 0) (2, 0) ∧ passableCell rowMaze 3 1 (2, 0) = true ∧
      gdist (passableCell rowMaze 3 1) (1, 0) (2, 0) = 1 := by
  have hc1 : cellOf 10 15 5 = (1, 0) := by
    unfold cellOf
    norm_num
  have hc2 : cellOf 10 25 5 = (2, 0) := by
    unfold cellOf
    norm_num
  have hcell : next_step_cell rowMaze (1, 0) (2, 0) = some (2, 0) := by
    decide
  have hev : next_step_towards rowMaze 10 15 5 25 5 = some (10, 0) := by
    unfold next_step_towards
    rw [hc1, hc2, hcell]
    norm_num
  have hmain := c6_next_step_towards rowMaze 10 15 5 25 5 3 1 rfl rfl
    (passableCell rowMaze 3 1) rfl (1, 0) (2, 0) (by rw [hc1]; rfl)
    (by rw [hc2]; rfl)
  obtain ⟨last, hvec, hcase⟩ := hmain.2 (10, 0) hev
  obtain ⟨l1, l2⟩ := last
  simp only [Prod.mk.injEq] at hvec
  obtain ⟨hx, hy⟩ := hvec
  have hl1 : (l1 : ℚ) = 2 := by linarith
  have hl2 : (l2 : ℚ) = 0 := by linarith
  have hl1n : l1 = 2 := by exact_mod_cast hl1
  have hl2n : l2 = 0 := by exact_mod_cast hl2
  subst hl1n
  subst hl2n
  rcases hcase with ⟨habs, _⟩ | ⟨_, hadj, hpassv, hgd, _⟩
  · exact absurd habs (by decide)
  · exact ⟨hev, hadj, hpassv, hgd⟩

end MazeGame
